import Mathlib

/-!
# kubeapply: phase partitioning and the phase runner

A shallow embedding of `cmd/kubeapply/kubeapply.go`.

* Go strings are byte sequences (`GoString`); `len`, indexing and slicing act on bytes.
* Go maps are association lists with pairwise distinct keys (`mapGet`, `mapSet`).
* The external collaborators (template engine, file system, readiness watcher, `kubectl`)
  are the fields of a `World`; every call is appended to a chronological event log, and the
  answer of a collaborator may depend on the whole log so far.
* The two goroutines `go copy(...)` that `apply` starts run beside the main goroutine and
  nothing waits for them: the field `copyPanic` of a `World` tells, at each point that the
  main goroutine reaches after `cmd.Run`, whether one of them has ended the process by its
  `panic(err)`.
* A directory walk is the list of entries that `filepath.Walk` reports (`WalkEntry`); the
  environment is the function `os.Getenv`.
-/

namespace Kubeapply

/-! ## Strings -/

/-- A Go string: an immutable sequence of bytes. -/
abbrev GoString := List UInt8

/-- The bytes of a string literal (its UTF-8 encoding, as in Go source text). -/
def bytes (s : String) : GoString := s.data.flatMap String.utf8EncodeChar

/-- Go's `<` on strings, as used by `sort.Strings`: bytewise lexicographic order, a proper
prefix being smaller. -/
def strLess : GoString → GoString → Bool
  | [], [] => false
  | [], _ :: _ => true
  | _ :: _, [] => false
  | a :: as, b :: bs =>
    if a.toNat < b.toNat then true
    else if b.toNat < a.toNat then false
    else strLess as bs

/-- The order `sort.Strings` sorts by: `a` may stand before `b` when `b < a` is false. -/
def strLE (a b : GoString) : Prop := strLess b a = false

instance : DecidableRel strLE := fun a b => inferInstanceAs (Decidable (strLess b a = false))

/-- `sort.Strings`: the slice in ascending order. The keys sorted by `phases` are pairwise
distinct, so every sorting algorithm returns the same slice; insertion sort stands for it. -/
def sortStrings (keys : List GoString) : List GoString := List.insertionSort strLE keys

/-- `strings.Join(elems, sep)`. -/
def stringsJoin : List GoString → GoString → GoString
  | [], _ => []
  | [a], _ => a
  | a :: b :: rest, sep => a ++ sep ++ stringsJoin (b :: rest) sep

/-- `strings.HasSuffix(s, suffix)`. -/
def stringsHasSuffix (s suffix : GoString) : Bool :=
  decide (suffix.length ≤ s.length) && decide (s.drop (s.length - suffix.length) = suffix)

/-- `os.IsPathSeparator` on Unix: the byte `/`. -/
def isPathSeparator (c : UInt8) : Bool := c.toNat == 47

/-- `filepath.Base` (Unix, where the volume name is empty): the last element of the path.
Trailing slashes are stripped first; the empty path gives `.`, a path of slashes gives `/`. -/
def filepath.Base (path : GoString) : GoString :=
  if path = [] then bytes "."
  else
    -- strip trailing slashes
    let path := (path.reverse.dropWhile isPathSeparator).reverse
    -- find the last element
    let path := (path.reverse.takeWhile (fun c => !isPathSeparator c)).reverse
    -- if empty now, it had only slashes
    if path = [] then bytes "/" else path

/-- `unicode.IsDigit(rune(b))` for a byte `b`: the rune of a byte is at most `MaxLatin1`,
where `unicode.IsDigit` is the range test `'0' <= r && r <= '9'` (the Unicode table is
consulted for larger runes only). -/
def unicode.IsDigit (b : UInt8) : Bool := decide (48 ≤ b.toNat) && decide (b.toNat ≤ 57)

/-! ## Maps -/

/-- Reading `m[k]`: the stored value, or the zero value of the element type. -/
def mapGet {β : Type} (zero : β) : List (GoString × β) → GoString → β
  | [], _ => zero
  | (k', v) :: m, k => if k' = k then v else mapGet zero m k

/-- The assignment `m[k] = v`: replaces the value of an existing key, adds a new key
otherwise. -/
def mapSet {β : Type} : List (GoString × β) → GoString → β → List (GoString × β)
  | [], k, v => [(k, v)]
  | (k', v') :: m, k, v => if k' = k then (k', v) :: m else (k', v') :: mapSet m k v

/-- The keys of a map, in the order of their first assignment. -/
def mapKeys {β : Type} (m : List (GoString × β)) : List GoString := m.map Prod.fst

/-! ## Phaser -/

/-- The type `Phaser`: `prefixes map[string][]string` and `last []string`. -/
structure Phaser where
  prefixes : List (GoString × List GoString)
  last : List GoString
deriving DecidableEq

/-- `NewPhaser`: an empty map and a nil `last`. -/
def NewPhaser : Phaser := { prefixes := [], last := [] }

/-- `Phaser.AddFile`. The reads `pfx[2]`, `pfx[0]`, `pfx[1]` are guarded by `len(pfx) == 3`
through the short-circuit `&&`. -/
def Phaser.AddFile (p : Phaser) (path : GoString) : Phaser :=
  let base := filepath.Base path
  let pfx : GoString := if base.length ≥ 3 then base.take 3 else []
  if pfx.length == 3 && pfx.getD 2 0 == 45 && unicode.IsDigit (pfx.getD 0 0)
      && unicode.IsDigit (pfx.getD 1 0) then
    { p with prefixes := mapSet p.prefixes pfx (mapGet [] p.prefixes pfx ++ [path]) }
  else
    { p with last := p.last ++ [path] }

/-- Lines 124-131 of `Phaser.phases`, given the slice `keys` that the `range` loop over the
map collected (Go iterates a map in an unspecified order). -/
def Phaser.phasesFrom (p : Phaser) (keys : List GoString) : List (List GoString) :=
  (sortStrings keys).map (fun k => mapGet [] p.prefixes k) ++ [p.last]

/-- `Phaser.phases`, the map being iterated in the order of first assignment. By
`phasesFrom_eq_of_perm` every other iteration order gives the same result. -/
def Phaser.phases (p : Phaser) : List (List GoString) := p.phasesFrom (mapKeys p.prefixes)

/-- The Phaser after `AddFile` was called on each path in turn, starting from `NewPhaser`. -/
def addFiles (paths : List GoString) : Phaser := paths.foldl Phaser.AddFile NewPhaser

/-! ### Vocabulary of the specification -/

/-- The base name has the shape digit, digit, dash: at least 3 bytes, the first two in
`'0'..'9'`, the third `'-'`. -/
def digitDigitDash : GoString → Bool
  | d1 :: d2 :: c :: _ =>
    decide (48 ≤ d1.toNat ∧ d1.toNat ≤ 57) && decide (48 ≤ d2.toNat ∧ d2.toNat ≤ 57)
      && decide (c.toNat = 45)
  | _ => false

/-- The key under which a path is grouped: the first three bytes `DD-` of its base name
when the base name has the shape digit, digit, dash; `none` for a keyless path. -/
def phaseKey (path : GoString) : Option GoString :=
  if digitDigitDash (filepath.Base path) then some ((filepath.Base path).take 3) else none

/-- The distinct PhaseKeys of the paths added. -/
def seenKeys (paths : List GoString) : List GoString := (paths.filterMap phaseKey).dedup

/-! ## Events, collaborators, configuration -/

/-- One externally visible action of the program, in the order of execution. -/
inductive Event where
  /-- Text written by `fmt.Printf` or `fmt.Println`. -/
  | stdout (text : GoString)
  /-- An error passed to `log.Print`. -/
  | logPrint (text : GoString)
  /-- The call `tmpl.ParseFiles(n)` on a fresh template named `base` with the sprig functions. -/
  | parseFiles (n : GoString)
  /-- The call `tmpl.ExecuteTemplate(buf, name, data)`. -/
  | executeTemplate (name : GoString)
  /-- The call `ioutil.WriteFile(out, content, perm)`. -/
  | writeFile (out content : GoString) (perm : Nat)
  /-- The call `k8s.NewWaiter(nil)`. -/
  | newWaiter
  /-- The call `waiter.Scan(n)`. -/
  | scan (n : GoString)
  /-- The command `kubectl args...` built by `exec.Command` and run by `apply`. -/
  | kubectl (args : List GoString)
  /-- The call `os.Remove(n)`. -/
  | remove (n : GoString)
  /-- The call `waiter.Wait(d)`, `d` a `time.Duration` in nanoseconds. -/
  | wait (d : Int)
  /-- The call `panic(err)` in one of the two goroutines `go copy(...)` of `apply`, after a
  failed `io.Copy`: it ends the process. -/
  | copyPanic (text : GoString)
deriving DecidableEq

/-- The collaborators. Each answers a call from the log of all events before that call and
the arguments of the call. An error is `some text`, `text` being what its `Error()` method
returns; `none` is the nil error. `δ` is the type of the data context (`interface{}`).
`kubectl` answers with the first error among `cmd.StdoutPipe()`, `cmd.StderrPipe()` and
`cmd.Run()`.

`copyPanic` stands for the two goroutines `go copy(os.Stdout, stdout)` and
`go copy(os.Stderr, stderr)` that `apply` starts and that nothing waits for: asked with the
log reached by the main goroutine, it answers `some err` when `io.Copy` has failed with
`err` in one of them by then (`cmd.Run` closes the pipes when `kubectl` exits, so a
goroutine that is still reading fails). The goroutine then panics and the process ends
whatever the main goroutine is doing. The question is put after every event of the main
goroutine from `cmd.Run` to the end of the call of `phase` that called `apply`. -/
structure World (δ : Type) where
  parseFiles : List Event → GoString → Option GoString
  executeTemplate : List Event → GoString → δ → Except GoString GoString
  writeFile : List Event → GoString → GoString → Nat → Option GoString
  scan : List Event → GoString → Option GoString
  kubectl : List Event → List GoString → Option GoString
  remove : List Event → GoString → Option GoString
  wait : List Event → Int → Bool
  copyPanic : List Event → Option GoString

/-- The flags `-debug` and `-t` (a Go `int`, 64 bits wide). -/
structure Config where
  debug : Bool
  timeout : Int

/-- How a call of `phase` (or the loop of `main`) ends. -/
inductive Outcome where
  | returned
  /-- The call `os.Exit(code)`. -/
  | exited (code : Int)
  /-- The call `panic(value)`, an error value being shown by its text. -/
  | panicked (value : GoString)
deriving DecidableEq

/-- A value of type `int64` after an arithmetic operation: two's complement wrap-around. -/
def wrapInt64 (x : Int) : Int := (x + 2 ^ 63) % 2 ^ 64 - 2 ^ 63

/-- The constant `time.Second`, in nanoseconds. -/
def timeSecond : Int := 1000000000

/-- The expression `time.Duration(*timeout) * time.Second`: an `int64` product. -/
def timeoutDuration (timeout : Int) : Int := wrapInt64 (timeout * timeSecond)

/-! ## expand -/

/-- The loop of `expand` (lines 183-200): `result` is the slice built so far, `h` the log. The
return value is the pair `([]string, error)` of the Go function, next to the new log. -/
def expandLoop {δ : Type} (w : World δ) (data : δ) :
    List GoString → List GoString → List Event → (List GoString × Option GoString) × List Event
  | [], result, h => ((result, none), h)
  | n :: rest, result, h =>
    match w.parseFiles h n with
    | some err => (([], some (n ++ bytes ": " ++ err)), h ++ [Event.parseFiles n])
    | none =>
      match w.executeTemplate (h ++ [Event.parseFiles n]) (filepath.Base n) data with
      | Except.error err =>
        (([], some (n ++ bytes ": " ++ err)),
          h ++ [Event.parseFiles n, Event.executeTemplate (filepath.Base n)])
      | Except.ok buf =>
        let out := n ++ bytes ".o"
        match w.writeFile (h ++ [Event.parseFiles n, Event.executeTemplate (filepath.Base n)])
            out buf 0o644 with
        | some err =>
          (([], some (out ++ bytes ": " ++ err)),
            h ++ [Event.parseFiles n, Event.executeTemplate (filepath.Base n),
              Event.writeFile out buf 0o644])
        | none =>
          expandLoop w data rest (result ++ [out])
            (h ++ [Event.parseFiles n, Event.executeTemplate (filepath.Base n),
              Event.writeFile out buf 0o644])

/-- The function `expand`. -/
def expand {δ : Type} (w : World δ) (names : List GoString) (data : δ) (h : List Event) :
    (List GoString × Option GoString) × List Event :=
  expandLoop w data names []
    (h ++ [Event.stdout (bytes "expanding " ++ stringsJoin names (bytes " ") ++ bytes "\n")])

/-! ## apply -/

/-- The argument list built by `apply` (lines 205-208). -/
def applyArgs (names : List GoString) : List GoString :=
  names.foldl (fun args n => args ++ [bytes "-f", n]) [bytes "apply"]

/-- The function `apply`: `some v` when the process ends in it by a panic with the error
`v`, `none` when it returns. The panic is the one of the main goroutine for an error of the
pipes or of `cmd.Run`, or the one of a copy goroutine whose `io.Copy` fails while `cmd.Run`
is under way. When `cmd.Run` returns an error the process ends by a panic in any case; the
value shown is the one of the main goroutine. When `apply` returns, the two copy goroutines
may still be running. -/
def apply {δ : Type} (w : World δ) (names : List GoString) (h : List Event) :
    Option GoString × List Event :=
  let args := applyArgs names
  let line := Event.stdout (bytes "kubectl " ++ stringsJoin args (bytes " ") ++ bytes "\n")
  match w.kubectl (h ++ [line]) args with
  | some err => (some err, h ++ [line, Event.kubectl args])
  | none =>
    match w.copyPanic (h ++ [line, Event.kubectl args]) with
    | some p => (some p, h ++ [line, Event.kubectl args, Event.copyPanic p])
    | none => (none, h ++ [line, Event.kubectl args])

/-! ## phase -/

/-- The registration loop of `phase` (lines 145-154): the map `valid`, the flag `abort`, the
log. -/
def scanLoop {δ : Type} (w : World δ) :
    List GoString → List (GoString × Bool) → Bool → List Event →
      (List (GoString × Bool) × Bool) × List Event
  | [], valid, abort, h => ((valid, abort), h)
  | n :: rest, valid, abort, h =>
    match w.scan h n with
    | some err =>
      scanLoop w rest (mapSet valid n false) true
        (h ++ [Event.scan n, Event.stdout (n ++ bytes ": " ++ err ++ bytes "\n")])
    | none => scanLoop w rest (mapSet valid n true) abort (h ++ [Event.scan n])

/-- Whether a copy goroutine has panicked when the main goroutine has reached the log `h`;
`live` tells whether `apply` was called in this call of `phase`, so that its goroutines may
be running. -/
def copyPanicked {δ : Type} (w : World δ) (live : Bool) (h : List Event) : Option GoString :=
  if live then w.copyPanic h else none

/-- The cleanup loop of `phase` (lines 161-168): `some p` when a copy goroutine ends the
process by a panic with `p` during the loop, `none` when the loop runs to its end. -/
def removeLoop {δ : Type} (w : World δ) (valid : List (GoString × Bool)) (live : Bool) :
    List GoString → List Event → Option GoString × List Event
  | [], h => (none, h)
  | n :: rest, h =>
    if mapGet false valid n then
      match copyPanicked w live (h ++ [Event.remove n]) with
      | some p => (some p, h ++ [Event.remove n, Event.copyPanic p])
      | none =>
        match w.remove h n with
        | some err =>
          match copyPanicked w live (h ++ [Event.remove n, Event.logPrint err]) with
          | some p => (some p, h ++ [Event.remove n, Event.logPrint err, Event.copyPanic p])
          | none => removeLoop w valid live rest (h ++ [Event.remove n, Event.logPrint err])
        | none => removeLoop w valid live rest (h ++ [Event.remove n])
    else removeLoop w valid live rest h

/-- The function `phase`, run with the flags `cfg` after the events `h`. -/
def phase {δ : Type} (cfg : Config) (w : World δ) (names : List GoString) (data : δ)
    (h : List Event) : Outcome × List Event :=
  match expand w names data h with
  | ((_, some err), h1) => (Outcome.exited 1, h1 ++ [Event.stdout (err ++ bytes "\n")])
  | ((expanded, none), h1) =>
    let h2 := h1 ++ [Event.newWaiter]
    match scanLoop w expanded [] false h2 with
    | ((valid, abort), h3) =>
      match (if !abort then apply w expanded h3 else (none, h3)) with
      | (some v, h4) => (Outcome.panicked v, h4)
      | (none, h4) =>
        -- from here on the copy goroutines of `apply` may be running, unless it was skipped
        match (if !cfg.debug then removeLoop w valid (!abort) expanded h4 else (none, h4)) with
        | (some p, h5) => (Outcome.panicked p, h5)
        | (none, h5) =>
          if abort then (Outcome.returned, h5)
          else
            match w.copyPanic (h5 ++ [Event.wait (timeoutDuration cfg.timeout)]) with
            | some p =>
              (Outcome.panicked p,
                h5 ++ [Event.wait (timeoutDuration cfg.timeout), Event.copyPanic p])
            | none =>
              if !w.wait h5 (timeoutDuration cfg.timeout) then
                (Outcome.panicked (bytes "not ready"),
                  h5 ++ [Event.wait (timeoutDuration cfg.timeout)])
              else (Outcome.returned, h5 ++ [Event.wait (timeoutDuration cfg.timeout)])

/-- The events that `phase` added to the log `h`. -/
def phaseLog {δ : Type} (cfg : Config) (w : World δ) (names : List GoString) (data : δ)
    (h : List Event) : List Event :=
  (phase cfg w names data h).2.drop h.length

/-- The events that `expand` added to the log `h`. -/
def expandLog {δ : Type} (w : World δ) (names : List GoString) (data : δ)
    (h : List Event) : List Event :=
  (expand w names data h).2.drop h.length

/-- The log at the start of the loop of `expand`: the log `h` and the line printed first. -/
def expandStart (names : List GoString) (h : List Event) : List Event :=
  h ++ [Event.stdout (bytes "expanding " ++ stringsJoin names (bytes " ") ++ bytes "\n")]

/-- The arguments of the `Scan` calls of a log, in order. -/
def scanCalls (l : List Event) : List GoString :=
  l.filterMap (fun e => match e with | Event.scan n => some n | _ => none)

/-- The argument lists of the `kubectl` invocations of a log, in order. -/
def kubectlCalls (l : List Event) : List (List GoString) :=
  l.filterMap (fun e => match e with | Event.kubectl args => some args | _ => none)

/-- The arguments of the `os.Remove` calls of a log, in order. -/
def removeCalls (l : List Event) : List GoString :=
  l.filterMap (fun e => match e with | Event.remove n => some n | _ => none)

/-- The durations of the `Wait` calls of a log, in order. -/
def waitCalls (l : List Event) : List Int :=
  l.filterMap (fun e => match e with | Event.wait d => some d | _ => none)

/-- The errors of the copy goroutines that ended the process, in a log. -/
def copyPanics (l : List Event) : List GoString :=
  l.filterMap (fun e => match e with | Event.copyPanic p => some p | _ => none)

/-- The arguments of the `ParseFiles` calls of a log, in order. -/
def parseCalls (l : List Event) : List GoString :=
  l.filterMap (fun e => match e with | Event.parseFiles n => some n | _ => none)

/-- The target paths of the `WriteFile` calls of a log, in order. -/
def writeCalls (l : List Event) : List GoString :=
  l.filterMap (fun e => match e with | Event.writeFile out _ _ => some out | _ => none)

/-- The paths whose `Scan` call returned an error, among the events `l` that follow the
log `h`: one entry per failing call, in order. -/
def failedScans {δ : Type} (w : World δ) : List Event → List Event → List GoString
  | _, [] => []
  | h, Event.scan n :: l =>
    (if (w.scan h n).isSome then [n] else []) ++ failedScans w (h ++ [Event.scan n]) l
  | h, e :: l => failedScans w (h ++ [e]) l

/-- The argument lists of the `kubectl` invocations that failed, among the events `l` that
follow the log `h`. -/
def failedApplies {δ : Type} (w : World δ) : List Event → List Event → List (List GoString)
  | _, [] => []
  | h, Event.kubectl args :: l =>
    (if (w.kubectl h args).isSome then [args] else [])
      ++ failedApplies w (h ++ [Event.kubectl args]) l
  | h, e :: l => failedApplies w (h ++ [e]) l

/-- The answers of the `Wait` calls among the events `l` that follow the log `h`. -/
def waitAnswers {δ : Type} (w : World δ) : List Event → List Event → List Bool
  | _, [] => []
  | h, Event.wait d :: l => w.wait h d :: waitAnswers w (h ++ [Event.wait d]) l
  | h, e :: l => waitAnswers w (h ++ [e]) l

/-- Whether the last `Scan` of the path `r` among the events `l` succeeded (`cur` when the
path is not scanned in `l`); `h` is the log before `l`. -/
def lastScanOk {δ : Type} (w : World δ) (r : GoString) : List Event → List Event → Bool → Bool
  | _, [], cur => cur
  | h, Event.scan n :: l, cur =>
    lastScanOk w r (h ++ [Event.scan n]) l (if n = r then (w.scan h n).isNone else cur)
  | h, e :: l, cur => lastScanOk w r (h ++ [e]) l cur

/-- The log `l` holds no call of the watcher, of `kubectl` or of `os.Remove`. -/
def noRunnerCalls (l : List Event) : Prop :=
  scanCalls l = [] ∧ kubectlCalls l = [] ∧ removeCalls l = [] ∧ waitCalls l = []

/-- A world whose collaborators never fail: every template renders to `content`. -/
def quietWorld (content : GoString) : World Unit where
  parseFiles := fun _ _ => none
  executeTemplate := fun _ _ _ => Except.ok content
  writeFile := fun _ _ _ _ => none
  scan := fun _ _ => none
  kubectl := fun _ _ => none
  remove := fun _ _ => none
  wait := fun _ _ => true
  copyPanic := fun _ => none

/-- The quiet world, except that `Scan` fails on the path `bad`. -/
def scanFailsOn (bad : GoString) : World Unit :=
  { quietWorld [] with
    scan := fun _ n => if n = bad then some (bytes "no matches for kind") else none }

/-- The quiet world, except that the first `Scan` of the run fails (a watcher that cannot
reach the cluster yet); every later `Scan` succeeds. -/
def firstScanFails : World Unit :=
  { quietWorld [] with
    scan := fun h _ => if scanCalls h = [] then some (bytes "connection refused") else none }

/-- The quiet world, except that the template file `bad` does not parse. -/
def parseFailsOn (bad : GoString) : World Unit :=
  { quietWorld [] with
    parseFiles := fun _ n => if n = bad then some (bytes "unexpected EOF") else none }

/-- The quiet world, except that no file can be written. -/
def writeFails : World Unit :=
  { quietWorld [] with writeFile := fun _ _ _ _ => some (bytes "permission denied") }

/-- The world `scanFailsOn bad`, except that `os.Remove` fails on every path. -/
def removeFails (bad : GoString) : World Unit :=
  { scanFailsOn bad with remove := fun _ _ => some (bytes "no such file or directory") }

/-- The quiet world, except that a copy goroutine of `apply`, still reading when `cmd.Run`
has closed the pipes, fails and panics once the main goroutine has removed a first file. -/
def copyFailsInCleanup : World Unit :=
  { quietWorld [] with
    copyPanic := fun h =>
      if removeCalls h = [] then none else some (bytes "read |0: file already closed") }

/-- The parse, execute and write steps that failed among the events `l` that follow the log
`h`: the events whose call got an error for an answer. -/
def failedSteps {δ : Type} (w : World δ) (data : δ) : List Event → List Event → List Event
  | _, [] => []
  | h, Event.parseFiles n :: l =>
    (if (w.parseFiles h n).isSome then [Event.parseFiles n] else [])
      ++ failedSteps w data (h ++ [Event.parseFiles n]) l
  | h, Event.executeTemplate name :: l =>
    (match w.executeTemplate h name data with
      | Except.error _ => [Event.executeTemplate name]
      | Except.ok _ => [])
      ++ failedSteps w data (h ++ [Event.executeTemplate name]) l
  | h, Event.writeFile out content perm :: l =>
    (if (w.writeFile h out content perm).isSome then [Event.writeFile out content perm] else [])
      ++ failedSteps w data (h ++ [Event.writeFile out content perm]) l
  | h, e :: l => failedSteps w data (h ++ [e]) l

/-! ## Further observations on a phase -/

/-- The value of the variable `abort` of `phase` when its registration loop (lines 145-154)
has ended, in a call of `phase` whose expansion succeeded. -/
def abortFlag {δ : Type} (w : World δ) (names : List GoString) (data : δ)
    (h : List Event) : Bool :=
  (scanLoop w (expand w names data h).1.1 [] false
    ((expand w names data h).2 ++ [Event.newWaiter])).1.2

/-- Whether an event is a call of `Scan`, `kubectl`, `os.Remove` or `Wait`. -/
def isRunnerCall : Event → Bool
  | Event.scan _ => true
  | Event.kubectl _ => true
  | Event.remove _ => true
  | Event.wait _ => true
  | _ => false

/-- The calls of `Scan`, `kubectl`, `os.Remove` and `Wait` in a log, in their order. -/
def runnerCalls (l : List Event) : List Event := l.filter isRunnerCall

/-! ## envBool -/

/-- The behaviour of `strings.ToLower` and `strings.TrimSpace` on a string that has a byte
`>= 0x80`: it follows the Unicode tables of the Go library, which are taken as given. -/
structure UnicodeTables where
  toLower : GoString → GoString
  trimSpace : GoString → GoString

/-- `unicode.ToLower` on an ASCII byte. -/
def asciiLower (b : UInt8) : UInt8 :=
  if 65 ≤ b.toNat ∧ b.toNat ≤ 90 then UInt8.ofNat (b.toNat + 32) else b

/-- `unicode.IsSpace` on an ASCII byte: tab, line feed, vertical tab, form feed, carriage
return, space. -/
def isAsciiSpace (b : UInt8) : Bool :=
  decide (b.toNat = 9 ∨ b.toNat = 10 ∨ b.toNat = 11 ∨ b.toNat = 12 ∨ b.toNat = 13 ∨ b.toNat = 32)

/-- Whether every byte of the string is below `utf8.RuneSelf`. -/
def isAscii (s : GoString) : Bool := s.all (fun b => decide (b.toNat < 128))

/-- `strings.ToLower`. -/
def stringsToLower (u : UnicodeTables) (s : GoString) : GoString :=
  if isAscii s then s.map asciiLower else u.toLower s

/-- `strings.TrimSpace`: leading and trailing white space removed. -/
def stringsTrimSpace (u : UnicodeTables) (s : GoString) : GoString :=
  if isAscii s then ((s.dropWhile isAsciiSpace).reverse.dropWhile isAsciiSpace).reverse
  else u.trimSpace s

/-- The function `envBool`; `getenv` is `os.Getenv`, which gives the empty string for a
variable that is not set. -/
def envBool (u : UnicodeTables) (getenv : GoString → GoString) (name : GoString) : Bool :=
  let val := getenv name
  let s := stringsTrimSpace u (stringsToLower u val)
  if s = bytes "true" then true
  else if s = bytes "yes" then true
  else if s = bytes "1" then true
  else if s = bytes "false" then false
  else if s = bytes "no" then false
  else if s = bytes "0" then false
  else if s = bytes "" then false
  else true

/-- Unicode tables that leave every string alone, for evaluating `envBool` on ASCII text. -/
def noTables : UnicodeTables := { toLower := id, trimSpace := id }

/-! ## Phaser.Add -/

/-- The function `isYaml`: the loop over the one extension `.yaml`. -/
def isYaml (name : GoString) : Bool :=
  [bytes ".yaml"].any (fun ext => stringsHasSuffix name ext)

/-- What `filepath.Walk` hands to its callback for one entry. An entry whose `lstat`
succeeded is a file or a directory; `Walk` reports an error either for a directory that
cannot be read (`info` is the directory) or for an entry whose `lstat` failed (`info` is
nil). -/
inductive WalkEntry where
  /-- An entry that is not a directory, reported with a nil error. -/
  | file (path : GoString)
  /-- A directory, reported with a nil error or with the error of reading it. -/
  | dir (path : GoString) (err : Option GoString)
  /-- An entry whose `lstat` failed: `info` is nil, `err` is the error. -/
  | failed (path : GoString) (err : GoString)
deriving DecidableEq

/-- The argument `path` of the callback. -/
def WalkEntry.path : WalkEntry → GoString
  | WalkEntry.file path => path
  | WalkEntry.dir path _ => path
  | WalkEntry.failed path _ => path

/-- The argument `err` of the callback. -/
def WalkEntry.err : WalkEntry → Option GoString
  | WalkEntry.file _ => none
  | WalkEntry.dir _ err => err
  | WalkEntry.failed _ err => some err

/-- The call `info.IsDir()`; it is made only when `err` is nil, so never on a nil `info`. -/
def WalkEntry.IsDir : WalkEntry → Bool
  | WalkEntry.file _ => false
  | WalkEntry.dir _ _ => true
  | WalkEntry.failed _ _ => false

/-- The callback that `Phaser.Add` gives to `filepath.Walk` (lines 92-102): the Phaser after
the call and the error returned. -/
def Phaser.addEntry (p : Phaser) (e : WalkEntry) : Phaser × Option GoString :=
  match e.err with
  | some err => (p, some err)
  | none =>
    if !e.IsDir && isYaml e.path then (p.AddFile e.path, none)
    else (p, none)

/-- `Phaser.Add`: `entries` are the entries that `filepath.Walk(root, ...)` reports, in its
order, as long as the callback returns nil. The first error returned by the callback ends
the walk and is the result of `Walk` and of `Add`. -/
def Phaser.Add (p : Phaser) : List WalkEntry → Phaser × Option GoString
  | [] => (p, none)
  | e :: rest =>
    match p.addEntry e with
    | (p1, some err) => (p1, some err)
    | (p1, none) => Phaser.Add p1 rest

/-- The paths that a walk hands to `AddFile` according to the specification: the paths of
the entries before the first error that are files and end in `.yaml`. -/
def manifestPaths : List WalkEntry → List GoString
  | [] => []
  | WalkEntry.file path :: rest =>
    if bytes ".yaml" <:+ path then path :: manifestPaths rest
    else manifestPaths rest
  | WalkEntry.dir _ none :: rest => manifestPaths rest
  | WalkEntry.dir _ (some _) :: _ => []
  | WalkEntry.failed _ _ :: _ => []

/-! ## Numeric order of the keys -/

/-- The number `00..99` that the two digits of a key `DD-` write. -/
def keyNumber : GoString → Nat
  | d1 :: d2 :: _ => (d1.toNat - 48) * 10 + (d2.toNat - 48)
  | _ => 0

/-- A valid key of the map `prefixes`: three bytes, two decimal digits and a dash. -/
def isPhaseKey (k : GoString) : Prop := k.length = 3 ∧ digitDigitDash k = true

instance (k : GoString) : Decidable (isPhaseKey k) :=
  inferInstanceAs (Decidable (k.length = 3 ∧ digitDigitDash k = true))

/-! ## Theorems -/

theorem strLess_irrefl (a : GoString) : strLess a a = false := by
  induction a with
  | nil => rfl
  | cons x xs ih => simp [strLess, ih]

theorem strLess_asymm : ∀ (a b : GoString), strLess a b = true → strLess b a = false
  | [], [] => by simp [strLess]
  | [], _ :: _ => by simp [strLess]
  | _ :: _, [] => by simp [strLess]
  | x :: xs, y :: ys => by
    have ih := strLess_asymm xs ys
    simp only [strLess]
    split_ifs <;> simp_all
    omega

theorem strLE_total (a b : GoString) : strLE a b ∨ strLE b a := by
  unfold strLE
  cases h : strLess b a
  · exact Or.inl rfl
  · exact Or.inr (strLess_asymm b a h)

theorem strLE_antisymm : ∀ (a b : GoString), strLE a b → strLE b a → a = b
  | [], [] => by simp
  | [], _ :: _ => by simp [strLE, strLess]
  | _ :: _, [] => by simp [strLE, strLess]
  | x :: xs, y :: ys => by
    have ih := strLE_antisymm xs ys
    simp only [strLE, strLess]
    intro h1 h2
    by_cases hxy : x.toNat < y.toNat
    · simp [hxy] at h2
    · by_cases hyx : y.toNat < x.toNat
      · simp [hyx] at h1
      · simp only [hxy, hyx, if_false] at h1 h2
        have hx : x = y := UInt8.ext (by omega)
        rw [hx, ih h1 h2]

theorem strLE_trans : ∀ (a b c : GoString), strLE a b → strLE b c → strLE a c
  | [], _, _ => by
    intro _ _; unfold strLE; cases ‹GoString› <;> simp [strLess]
  | _ :: _, [], _ => by simp [strLE, strLess]
  | _ :: _, _ :: _, [] => by simp [strLE, strLess]
  | x :: xs, y :: ys, z :: zs => by
    have ih := strLE_trans xs ys zs
    simp only [strLE, strLess]
    intro h1 h2
    simp only [strLE] at ih
    split_ifs at h1 h2 ⊢ <;> simp_all <;> omega

theorem byte_beq_dash (c : UInt8) : (c == 45) = decide (c.toNat = 45) := by
  by_cases h : c.toNat = 45
  · have : c = 45 := UInt8.ext h
    simp [this]
  · have : c ≠ 45 := fun hc => h (by rw [hc]; rfl)
    simp [h, this]

theorem AddFile_eq (p : Phaser) (path : GoString) :
    p.AddFile path =
      if digitDigitDash (filepath.Base path) then
        { prefixes := mapSet p.prefixes ((filepath.Base path).take 3)
            (mapGet [] p.prefixes ((filepath.Base path).take 3) ++ [path]),
          last := p.last }
      else { prefixes := p.prefixes, last := p.last ++ [path] } := by
  unfold Phaser.AddFile
  generalize filepath.Base path = base
  rcases base with _ | ⟨a, _ | ⟨b, _ | ⟨c, rest⟩⟩⟩
  · simp [digitDigitDash]
  · simp [digitDigitDash]
  · simp [digitDigitDash]
  · have hc : (c == 45) = decide (c.toNat = 45) := byte_beq_dash c
    simp only [digitDigitDash, unicode.IsDigit, List.length_cons, List.take_succ_cons,
      List.take_zero, List.getD_cons_succ, List.getD_cons_zero]
    by_cases h1 : 48 ≤ a.toNat ∧ a.toNat ≤ 57 <;> by_cases h2 : 48 ≤ b.toNat ∧ b.toNat ≤ 57 <;>
      by_cases h3 : c.toNat = 45 <;> simp [h1, h2, h3, hc]

theorem mapGet_mapSet_self {β : Type} (zero : β) (m : List (GoString × β)) (k : GoString)
    (v : β) : mapGet zero (mapSet m k v) k = v := by
  induction m with
  | nil => simp [mapSet, mapGet]
  | cons kv m ih =>
    obtain ⟨k', v'⟩ := kv
    by_cases h : k' = k <;> simp [mapSet, mapGet, h, ih]

theorem mapGet_mapSet_other {β : Type} (zero : β) (m : List (GoString × β)) (k k2 : GoString)
    (v : β) (hne : k ≠ k2) : mapGet zero (mapSet m k v) k2 = mapGet zero m k2 := by
  induction m with
  | nil => simp [mapSet, mapGet, hne]
  | cons kv m ih =>
    obtain ⟨k', v'⟩ := kv
    by_cases h : k' = k
    · subst h; simp [mapSet, mapGet, hne]
    · by_cases h2 : k' = k2
      · subst h2; simp [mapSet, mapGet, h]
      · simp [mapSet, mapGet, h, h2, ih]

theorem mem_mapKeys_mapSet {β : Type} (m : List (GoString × β)) (k k2 : GoString) (v : β) :
    k2 ∈ mapKeys (mapSet m k v) ↔ k2 = k ∨ k2 ∈ mapKeys m := by
  induction m with
  | nil => simp [mapSet, mapKeys]
  | cons kv m ih =>
    obtain ⟨k', v'⟩ := kv
    by_cases h : k' = k
    · subst h; simp [mapSet, mapKeys]
    · simp only [mapKeys] at ih
      simp [mapSet, mapKeys, h, ih]
      tauto

theorem nodup_mapKeys_mapSet {β : Type} (m : List (GoString × β)) (k : GoString) (v : β)
    (hm : (mapKeys m).Nodup) : (mapKeys (mapSet m k v)).Nodup := by
  induction m with
  | nil => simp [mapSet, mapKeys]
  | cons kv m ih =>
    obtain ⟨k', v'⟩ := kv
    by_cases h : k' = k
    · subst h; simpa [mapSet, mapKeys] using hm
    · have hm' : k' ∉ mapKeys m ∧ (mapKeys m).Nodup := by simpa [mapKeys] using hm
      have hmem := mem_mapKeys_mapSet m k k' v
      have : (mapKeys ((k', v') :: mapSet m k v)).Nodup := by
        show (k' :: mapKeys (mapSet m k v)).Nodup
        refine List.nodup_cons.mpr ⟨?_, ih hm'.2⟩
        rw [hmem]; tauto
      simpa [mapSet, h] using this

theorem mapGet_eq_zero_of_not_mem {β : Type} (zero : β) (m : List (GoString × β)) (k : GoString)
    (h : k ∉ mapKeys m) : mapGet zero m k = zero := by
  induction m with
  | nil => rfl
  | cons kv m ih =>
    obtain ⟨k', v'⟩ := kv
    have h' : ¬ k = k' ∧ k ∉ mapKeys m := by simpa [mapKeys] using h
    have hne : ¬ k' = k := fun e => h'.1 e.symm
    simp [mapGet, hne, ih h'.2]

theorem addFiles_append_one (paths : List GoString) (x : GoString) :
    addFiles (paths ++ [x]) = (addFiles paths).AddFile x := by
  simp [addFiles, List.foldl_append]

/-- What `addFiles` builds: the catch-all list holds the keyless paths, the map holds under
each key the paths with that key, both in the order of the calls; the keys of the map are
pairwise distinct and are the keys of the paths added. -/
theorem addFiles_spec (paths : List GoString) :
    (addFiles paths).last = paths.filter (fun x => decide (phaseKey x = none)) ∧
    (∀ k, mapGet [] (addFiles paths).prefixes k
        = paths.filter (fun x => decide (phaseKey x = some k))) ∧
    (mapKeys (addFiles paths).prefixes).Nodup ∧
    (∀ k, k ∈ mapKeys (addFiles paths).prefixes ↔ ∃ x ∈ paths, phaseKey x = some k) := by
  induction paths using List.reverseRecOn with
  | nil => simp [addFiles, NewPhaser, mapGet, mapKeys]
  | append_singleton paths x ih =>
    obtain ⟨ih1, ih2, ih3, ih4⟩ := ih
    rw [addFiles_append_one, AddFile_eq]
    by_cases hx : digitDigitDash (filepath.Base x) = true
    · have hk : phaseKey x = some ((filepath.Base x).take 3) := by simp [phaseKey, hx]
      rw [if_pos hx]
      refine ⟨?_, ?_, nodup_mapKeys_mapSet _ _ _ ih3, ?_⟩
      · simp [ih1, List.filter_append, hk]
      · intro k
        by_cases hkk : (filepath.Base x).take 3 = k
        · subst hkk
          rw [mapGet_mapSet_self, ih2]
          simp [List.filter_append, hk]
        · rw [mapGet_mapSet_other _ _ _ _ _ hkk, ih2]
          simp [List.filter_append, hk, hkk]
      · intro k
        rw [mem_mapKeys_mapSet, ih4]
        constructor
        · rintro (h | ⟨y, hy, hyk⟩)
          · exact ⟨x, by simp, by rw [hk, h]⟩
          · exact ⟨y, by simp [hy], hyk⟩
        · rintro ⟨y, hy, hyk⟩
          rcases List.mem_append.mp hy with hy | hy
          · exact Or.inr ⟨y, hy, hyk⟩
          · have : y = x := by simpa using hy
            subst this
            rw [hk] at hyk
            exact Or.inl (Option.some.inj hyk).symm
    · have hk : phaseKey x = none := by simp [phaseKey, hx]
      rw [if_neg hx]
      refine ⟨?_, ?_, ih3, ?_⟩
      · simp [ih1, List.filter_append, hk]
      · intro k
        simp [ih2, List.filter_append, hk]
      · intro k
        rw [ih4]
        constructor
        · rintro ⟨y, hy, hyk⟩
          exact ⟨y, by simp [hy], hyk⟩
        · rintro ⟨y, hy, hyk⟩
          rcases List.mem_append.mp hy with hy | hy
          · exact ⟨y, hy, hyk⟩
          · have : y = x := by simpa using hy
            subst this
            rw [hk] at hyk
            cases hyk

theorem sortStrings_sorted (keys : List GoString) : (sortStrings keys).Sorted strLE :=
  @List.sorted_insertionSort _ strLE _ ⟨strLE_total⟩ ⟨strLE_trans⟩ keys

theorem sortStrings_perm (keys : List GoString) : (sortStrings keys).Perm keys :=
  List.perm_insertionSort strLE keys

/-- The result of `sort.Strings` does not depend on the order of its input. -/
theorem sortStrings_eq_of_perm (ks1 ks2 : List GoString) (h : ks1.Perm ks2) :
    sortStrings ks1 = sortStrings ks2 :=
  @List.eq_of_perm_of_sorted _ strLE ⟨strLE_antisymm⟩ _ _
    (((sortStrings_perm ks1).trans h).trans (sortStrings_perm ks2).symm)
    (sortStrings_sorted ks1) (sortStrings_sorted ks2)

/-- The result of `phases` does not depend on the order in which the map is iterated. -/
theorem phasesFrom_eq_of_perm (p : Phaser) (ks : List GoString)
    (h : ks.Perm (mapKeys p.prefixes)) : p.phasesFrom ks = p.phases := by
  unfold Phaser.phases Phaser.phasesFrom
  rw [sortStrings_eq_of_perm ks _ h]

/-- Sorted and pairwise distinct keys are strictly ascending. -/
theorem sortStrings_strict (keys : List GoString) (hnd : keys.Nodup) :
    (sortStrings keys).Pairwise (fun a b => strLess a b = true) := by
  have hs : (sortStrings keys).Pairwise strLE := sortStrings_sorted keys
  have hn : (sortStrings keys).Pairwise (fun a b => a ≠ b) :=
    ((sortStrings_perm keys).nodup_iff).mpr hnd
  refine (hs.and hn).imp ?_
  intro a b hab
  obtain ⟨h1, h2⟩ := hab
  cases hlt : strLess a b
  · exact absurd (strLE_antisymm a b h1 hlt) h2
  · rfl

theorem filter_get_countP (q : GoString → Bool) :
    ∀ (l : List GoString) (i : Nat) (x : GoString), l[i]? = some x → q x = true →
      (l.filter q)[(l.take i).countP q]? = some x
  | [], i, x, h, _ => by simp at h
  | a :: l, 0, x, h, hq => by
    have : a = x := by simpa using h
    subst this
    simp [List.filter_cons, hq]
  | a :: l, i + 1, x, h, hq => by
    have h' : l[i]? = some x := by simpa using h
    have ih := filter_get_countP q l i x h' hq
    by_cases ha : q a = true
    · simp [List.filter_cons, List.countP_cons, ha, ih]
    · simp [List.filter_cons, List.countP_cons, ha, ih]

theorem countP_take_lt (q : GoString → Bool) :
    ∀ (l : List GoString) (i j : Nat) (x : GoString), i < j → l[i]? = some x → q x = true →
      (l.take i).countP q < (l.take j).countP q
  | [], i, j, x, _, h, _ => by simp at h
  | a :: l, 0, j + 1, x, _, h, hq => by
    have : a = x := by simpa using h
    subst this
    simp [List.countP_cons, hq]
  | a :: l, i + 1, j + 1, x, hij, h, hq => by
    have h' : l[i]? = some x := by simpa using h
    have ih := countP_take_lt q l i j x (by omega) h' hq
    simp only [List.take_succ_cons, List.countP_cons]
    omega

theorem mapKeys_perm_seenKeys (paths : List GoString) :
    (mapKeys (addFiles paths).prefixes).Perm (seenKeys paths) := by
  obtain ⟨_, _, h3, h4⟩ := addFiles_spec paths
  refine (List.perm_ext_iff_of_nodup h3 (List.nodup_dedup _)).mpr ?_
  intro k
  rw [h4]
  simp [seenKeys, List.mem_filterMap]

theorem phasesFrom_eq (paths ks : List GoString)
    (hks : ks.Perm (mapKeys (addFiles paths).prefixes)) :
    (addFiles paths).phasesFrom ks =
      (sortStrings (seenKeys paths)).map
          (fun k => paths.filter (fun x => decide (phaseKey x = some k)))
        ++ [paths.filter (fun x => decide (phaseKey x = none))] := by
  obtain ⟨h1, h2, _, _⟩ := addFiles_spec paths
  unfold Phaser.phasesFrom
  rw [sortStrings_eq_of_perm ks _ (hks.trans (mapKeys_perm_seenKeys paths)), h1]
  congr 1
  apply List.map_congr_left
  intro k _
  exact h2 k

/-- C1: `AddFile` appends the path to the keyed group of the first three bytes of its base
name exactly when the base name (`filepath.Base`) has the shape digit, digit, dash; in every
other case, and so for every base name shorter than 3 bytes, it appends the path to the
catch-all list and leaves the map alone. -/
theorem C1_AddFile_grouping (p : Phaser) (path : GoString) :
    (p.AddFile path =
      if digitDigitDash (filepath.Base path) then
        { prefixes := mapSet p.prefixes ((filepath.Base path).take 3)
            (mapGet [] p.prefixes ((filepath.Base path).take 3) ++ [path]),
          last := p.last }
      else { prefixes := p.prefixes, last := p.last ++ [path] }) ∧
    (digitDigitDash (filepath.Base path) = true →
      mapGet [] (p.AddFile path).prefixes ((filepath.Base path).take 3)
          = mapGet [] p.prefixes ((filepath.Base path).take 3) ++ [path] ∧
        (p.AddFile path).last = p.last) ∧
    ((filepath.Base path).length < 3 →
      p.AddFile path = { prefixes := p.prefixes, last := p.last ++ [path] }) := by
  refine ⟨AddFile_eq p path, ?_, ?_⟩
  · intro h
    rw [AddFile_eq, if_pos h]
    exact ⟨mapGet_mapSet_self _ _ _ _, rfl⟩
  · intro h
    have hd : digitDigitDash (filepath.Base path) = false := by
      rcases hb : filepath.Base path with _ | ⟨a, _ | ⟨b, _ | ⟨c, rest⟩⟩⟩
      · rfl
      · rfl
      · rfl
      · rw [hb] at h; simp at h; omega
    rw [AddFile_eq, hd]
    rfl

/-- A base name of two bytes: the path goes to the catch-all list. -/
theorem C1_AddFile_grouping_witness :
    (filepath.Base (bytes "d/1-")).length < 3 ∧
      NewPhaser.AddFile (bytes "d/1-") = { prefixes := [], last := [bytes "d/1-"] } :=
  ⟨by decide, (C1_AddFile_grouping NewPhaser (bytes "d/1-")).2.2 (by decide)⟩

/-- C2: after any sequence of `AddFile` calls on a new Phaser, and for every order in which
the map is iterated, `phases` returns the keyed groups in strictly ascending key order
followed by the catch-all group once: `k + 1` lists for `k` distinct keys, also when the
catch-all group is empty. With no file the result is one empty phase; the files
`00-ns.yaml`, `10-deploy.yaml`, `readme.yaml` give one phase each, in this order. -/
theorem C2_phases_shape (paths ks : List GoString)
    (hks : ks.Perm (mapKeys (addFiles paths).prefixes)) :
    (addFiles paths).phasesFrom ks =
      (sortStrings (seenKeys paths)).map
          (fun k => paths.filter (fun x => decide (phaseKey x = some k)))
        ++ [paths.filter (fun x => decide (phaseKey x = none))] ∧
    (sortStrings (seenKeys paths)).Pairwise (fun a b => strLess a b = true) ∧
    (sortStrings (seenKeys paths)).Perm (seenKeys paths) ∧
    ((addFiles paths).phasesFrom ks).length = (seenKeys paths).length + 1 ∧
    ((addFiles paths).phasesFrom ks).getLast? =
      some (paths.filter (fun x => decide (phaseKey x = none))) ∧
    (addFiles []).phases = [[]] ∧
    (addFiles [bytes "00-ns.yaml", bytes "10-deploy.yaml", bytes "readme.yaml"]).phases =
      [[bytes "00-ns.yaml"], [bytes "10-deploy.yaml"], [bytes "readme.yaml"]] := by
  have heq := phasesFrom_eq paths ks hks
  refine ⟨heq, sortStrings_strict _ (List.nodup_dedup _), sortStrings_perm _, ?_, ?_,
    by decide, by decide⟩
  · rw [heq]
    simp [(sortStrings_perm (seenKeys paths)).length_eq]
  · rw [heq]
    simp

/-- The keys `10-` and `00-` iterated in the order opposite to their first assignment. -/
theorem C2_phases_shape_witness :
    [bytes "10-", bytes "00-"].Perm
        (mapKeys (addFiles [bytes "00-a.yaml", bytes "x.yaml", bytes "10-b.yaml"]).prefixes) ∧
      (addFiles [bytes "00-a.yaml", bytes "x.yaml", bytes "10-b.yaml"]).phasesFrom
          [bytes "10-", bytes "00-"] =
        [[bytes "00-a.yaml"], [bytes "10-b.yaml"], [bytes "x.yaml"]] :=
  ⟨by decide,
    (C2_phases_shape [bytes "00-a.yaml", bytes "x.yaml", bytes "10-b.yaml"]
      [bytes "10-", bytes "00-"] (by decide)).1.trans (by decide)⟩

/-- C3: when the paths added at positions `i < j` fall in the same phase (equal keys, or
both keyless), that phase of `phases` is the input sequence restricted to the paths of the
phase, in the order of the calls, so the path added at `i` stands in it before the path
added at `j`. -/
theorem C3_discovery_order (paths ks : List GoString)
    (hks : ks.Perm (mapKeys (addFiles paths).prefixes)) (i j : Nat) (x y : GoString)
    (hij : i < j) (hx : paths[i]? = some x) (hy : paths[j]? = some y)
    (hsame : phaseKey x = phaseKey y) :
    ∃ ph ∈ (addFiles paths).phasesFrom ks,
      ph = paths.filter (fun z => decide (phaseKey z = phaseKey x)) ∧
      ∃ i' j' : Nat, i' < j' ∧ ph[i']? = some x ∧ ph[j']? = some y := by
  have hmemx : x ∈ paths := List.getElem?_mem hx
  refine ⟨paths.filter (fun z => decide (phaseKey z = phaseKey x)), ?_, rfl,
    (paths.take i).countP (fun z => decide (phaseKey z = phaseKey x)),
    (paths.take j).countP (fun z => decide (phaseKey z = phaseKey x)),
    countP_take_lt _ paths i j x hij hx (by simp),
    filter_get_countP _ paths i x hx (by simp),
    filter_get_countP _ paths j y hy (by simp [hsame])⟩
  rw [phasesFrom_eq paths ks hks]
  cases hk : phaseKey x with
  | none => simp
  | some k =>
    have hk' : k ∈ sortStrings (seenKeys paths) := by
      rw [(sortStrings_perm _).mem_iff]
      simp only [seenKeys, List.mem_dedup, List.mem_filterMap]
      exact ⟨x, hmemx, hk⟩
    simp only [List.mem_append, List.mem_map, List.mem_singleton]
    exact Or.inl ⟨k, hk', rfl⟩

/-- Two files keyed `10-` around a file keyed `00-`. -/
theorem C3_discovery_order_witness :
    ∃ ph ∈ (addFiles [bytes "10-b.yaml", bytes "00-a.yaml", bytes "10-a.yaml"]).phasesFrom
        [bytes "00-", bytes "10-"],
      ph = [bytes "10-b.yaml", bytes "00-a.yaml", bytes "10-a.yaml"].filter
          (fun z => decide (phaseKey z = phaseKey (bytes "10-b.yaml"))) ∧
      ∃ i' j' : Nat, i' < j' ∧ ph[i']? = some (bytes "10-b.yaml") ∧ ph[j']? = some (bytes "10-a.yaml") :=
  C3_discovery_order [bytes "10-b.yaml", bytes "00-a.yaml", bytes "10-a.yaml"]
    [bytes "00-", bytes "10-"] (by decide) 0 2 (bytes "10-b.yaml") (bytes "10-a.yaml")
    (by decide) (by decide) (by decide) (by decide)

theorem failedScans_append {δ : Type} (w : World δ) (l1 l2 h : List Event) :
    failedScans w h (l1 ++ l2) = failedScans w h l1 ++ failedScans w (h ++ l1) l2 := by
  induction l1 generalizing h with
  | nil => simp [failedScans]
  | cons e l ih => cases e <;> simp [failedScans, ih, List.append_assoc]

theorem failedScans_of_no_scan {δ : Type} (w : World δ) (l h : List Event)
    (hl : scanCalls l = []) : failedScans w h l = [] := by
  induction l generalizing h with
  | nil => rfl
  | cons e l ih =>
    cases e <;> simp [scanCalls] at hl <;> simp [failedScans] <;> exact ih _ (by simpa [scanCalls] using hl)

theorem failedApplies_append {δ : Type} (w : World δ) (l1 l2 h : List Event) :
    failedApplies w h (l1 ++ l2) = failedApplies w h l1 ++ failedApplies w (h ++ l1) l2 := by
  induction l1 generalizing h with
  | nil => simp [failedApplies]
  | cons e l ih => cases e <;> simp [failedApplies, ih, List.append_assoc]

theorem failedApplies_of_no_kubectl {δ : Type} (w : World δ) (l h : List Event)
    (hl : kubectlCalls l = []) : failedApplies w h l = [] := by
  induction l generalizing h with
  | nil => rfl
  | cons e l ih =>
    cases e <;> simp [kubectlCalls] at hl <;> simp [failedApplies] <;>
      exact ih _ (by simpa [kubectlCalls] using hl)

theorem waitAnswers_append {δ : Type} (w : World δ) (l1 l2 h : List Event) :
    waitAnswers w h (l1 ++ l2) = waitAnswers w h l1 ++ waitAnswers w (h ++ l1) l2 := by
  induction l1 generalizing h with
  | nil => simp [waitAnswers]
  | cons e l ih => cases e <;> simp [waitAnswers, ih, List.append_assoc]

theorem waitAnswers_of_no_wait {δ : Type} (w : World δ) (l h : List Event)
    (hl : waitCalls l = []) : waitAnswers w h l = [] := by
  induction l generalizing h with
  | nil => rfl
  | cons e l ih =>
    cases e <;> simp [waitCalls] at hl <;> simp [waitAnswers] <;>
      exact ih _ (by simpa [waitCalls] using hl)

theorem lastScanOk_append {δ : Type} (w : World δ) (r : GoString) (l1 l2 h : List Event)
    (cur : Bool) :
    lastScanOk w r h (l1 ++ l2) cur = lastScanOk w r (h ++ l1) l2 (lastScanOk w r h l1 cur) := by
  induction l1 generalizing h cur with
  | nil => simp [lastScanOk]
  | cons e l ih => cases e <;> simp [lastScanOk, ih, List.append_assoc]

theorem lastScanOk_of_no_scan {δ : Type} (w : World δ) (r : GoString) (l h : List Event)
    (cur : Bool) (hl : scanCalls l = []) : lastScanOk w r h l cur = cur := by
  induction l generalizing h with
  | nil => rfl
  | cons e l ih =>
    cases e <;> simp [scanCalls] at hl <;> simp [lastScanOk] <;>
      exact ih _ (by simpa [scanCalls] using hl)

theorem scanCalls_append (a b : List Event) : scanCalls (a ++ b) = scanCalls a ++ scanCalls b := by
  simp [scanCalls]

theorem kubectlCalls_append (a b : List Event) :
    kubectlCalls (a ++ b) = kubectlCalls a ++ kubectlCalls b := by
  simp [kubectlCalls]

theorem removeCalls_append (a b : List Event) :
    removeCalls (a ++ b) = removeCalls a ++ removeCalls b := by
  simp [removeCalls]

theorem waitCalls_append (a b : List Event) : waitCalls (a ++ b) = waitCalls a ++ waitCalls b := by
  simp [waitCalls]

theorem copyPanics_append (a b : List Event) :
    copyPanics (a ++ b) = copyPanics a ++ copyPanics b := by
  simp [copyPanics]

theorem expandLoop_log {δ : Type} (w : World δ) (data : δ) (names result : List GoString)
    (h : List Event) :
    ∃ l, (expandLoop w data names result h).2 = h ++ l ∧ noRunnerCalls l := by
  induction names generalizing result h with
  | nil => exact ⟨[], by simp [expandLoop], by simp [noRunnerCalls, scanCalls, kubectlCalls, removeCalls, waitCalls]⟩
  | cons n rest ih =>
    simp only [expandLoop]
    split
    · exact ⟨[Event.parseFiles n], rfl,
        by simp [noRunnerCalls, scanCalls, kubectlCalls, removeCalls, waitCalls]⟩
    · split
      · exact ⟨[Event.parseFiles n, Event.executeTemplate (filepath.Base n)], by simp,
          by simp [noRunnerCalls, scanCalls, kubectlCalls, removeCalls, waitCalls]⟩
      · rename_i buf _
        split
        · exact ⟨[Event.parseFiles n, Event.executeTemplate (filepath.Base n),
              Event.writeFile (n ++ bytes ".o") buf 0o644], by simp,
            by simp [noRunnerCalls, scanCalls, kubectlCalls, removeCalls, waitCalls]⟩
        · obtain ⟨l, hl, hq⟩ := ih (result ++ [n ++ bytes ".o"])
            (h ++ [Event.parseFiles n, Event.executeTemplate (filepath.Base n),
              Event.writeFile (n ++ bytes ".o") buf 0o644])
          refine ⟨[Event.parseFiles n, Event.executeTemplate (filepath.Base n),
              Event.writeFile (n ++ bytes ".o") buf 0o644] ++ l, ?_, ?_⟩
          · rw [hl]; simp
          · obtain ⟨h1, h2, h3, h4⟩ := hq
            simp only [scanCalls, kubectlCalls, removeCalls, waitCalls] at h1 h2 h3 h4
            simp [noRunnerCalls, scanCalls, kubectlCalls, removeCalls, waitCalls, h1, h2, h3, h4]

theorem expandLoop_ok {δ : Type} (w : World δ) (data : δ) (names result : List GoString)
    (h : List Event) (hok : (expandLoop w data names result h).1.2 = none) :
    (expandLoop w data names result h).1.1 = result ++ names.map (fun n => n ++ bytes ".o") ∧
    ∃ l, (expandLoop w data names result h).2 = h ++ l ∧ parseCalls l = names ∧
      writeCalls l = names.map (fun n => n ++ bytes ".o") := by
  induction names generalizing result h with
  | nil => exact ⟨by simp [expandLoop], [], by simp [expandLoop], rfl, rfl⟩
  | cons n rest ih =>
    simp only [expandLoop] at hok ⊢
    split
    · rename_i hp; simp [hp] at hok
    · rename_i hp
      split
      · rename_i he; simp [hp, he] at hok
      · rename_i buf he
        split
        · rename_i hw; simp [hp, he, hw] at hok
        · rename_i hw
          simp only [hp, he, hw] at hok
          obtain ⟨h1, l, hl, hpc, hwc⟩ := ih _ _ hok
          refine ⟨by rw [h1]; simp, [Event.parseFiles n,
            Event.executeTemplate (filepath.Base n),
            Event.writeFile (n ++ bytes ".o") buf 0o644] ++ l, by rw [hl]; simp, ?_, ?_⟩
          · simp only [parseCalls] at hpc
            simp [parseCalls, hpc]
          · simp only [writeCalls] at hwc
            simp [writeCalls, hwc]

theorem expandLoop_err {δ : Type} (w : World δ) (data : δ) (names result : List GoString)
    (h : List Event) (hne : (expandLoop w data names result h).1.2 ≠ none) :
    (expandLoop w data names result h).1.1 = [] := by
  induction names generalizing result h with
  | nil => simp [expandLoop] at hne
  | cons n rest ih =>
    simp only [expandLoop] at hne ⊢
    split
    · rfl
    · split
      · rfl
      · split
        · rfl
        · rename_i hp _ _ he _ hw
          simp only [hp, he, hw] at hne
          exact ih _ _ hne

/-- The loop of `expand` on a list `l1 ++ l2` whose part `l1` is processed without failure
continues on `l2` from the state reached after `l1`. -/
theorem expandLoop_append {δ : Type} (w : World δ) (data : δ) (l1 l2 result : List GoString)
    (h : List Event) (hok : (expandLoop w data l1 result h).1.2 = none) :
    expandLoop w data (l1 ++ l2) result h =
      expandLoop w data l2 (expandLoop w data l1 result h).1.1
        (expandLoop w data l1 result h).2 := by
  induction l1 generalizing result h with
  | nil => simp [expandLoop]
  | cons n rest ih =>
    simp only [List.cons_append, expandLoop] at hok ⊢
    split
    · rename_i hp; simp [hp] at hok
    · rename_i hp
      split
      · rename_i he; simp [hp, he] at hok
      · rename_i buf he
        split
        · rename_i hw; simp [hp, he, hw] at hok
        · rename_i hw
          simp only [hp, he, hw] at hok
          exact ih _ _ hok

/-- A failing step ends the loop of `expand`: the files after it are not looked at. -/
theorem expandLoop_fail_here {δ : Type} (w : World δ) (data : δ) (n : GoString)
    (rest result : List GoString) (h : List Event)
    (hne : (expandLoop w data [n] result h).1.2 ≠ none) :
    expandLoop w data (n :: rest) result h = expandLoop w data [n] result h := by
  simp only [expandLoop] at hne ⊢
  split
  · rfl
  · split
    · rfl
    · split
      · rfl
      · rename_i hp _ _ he _ hw
        simp only [hp, he, hw] at hne
        exact absurd rfl hne

theorem expandLoop_single_parse {δ : Type} (w : World δ) (data : δ) (n : GoString)
    (result : List GoString) (h : List Event) :
    ∃ l, (expandLoop w data [n] result h).2 = h ++ l ∧ parseCalls l = [n] := by
  simp only [expandLoop]
  split
  · exact ⟨[Event.parseFiles n], rfl, rfl⟩
  · split
    · exact ⟨[Event.parseFiles n, Event.executeTemplate (filepath.Base n)], rfl, rfl⟩
    · rename_i buf _
      split
      · exact ⟨[Event.parseFiles n, Event.executeTemplate (filepath.Base n),
          Event.writeFile (n ++ bytes ".o") buf 0o644], rfl, rfl⟩
      · exact ⟨[Event.parseFiles n, Event.executeTemplate (filepath.Base n),
          Event.writeFile (n ++ bytes ".o") buf 0o644], rfl, rfl⟩

theorem scanLoop_spec {δ : Type} (w : World δ) (ns : List GoString)
    (valid : List (GoString × Bool)) (abort : Bool) (h : List Event) :
    ∃ l, (scanLoop w ns valid abort h).2 = h ++ l ∧ scanCalls l = ns ∧
      kubectlCalls l = [] ∧ removeCalls l = [] ∧ waitCalls l = [] ∧
      (scanLoop w ns valid abort h).1.2 = (abort || decide (failedScans w h l ≠ [])) ∧
      ∀ r, mapGet false (scanLoop w ns valid abort h).1.1 r
        = lastScanOk w r h l (mapGet false valid r) := by
  induction ns generalizing valid abort h with
  | nil =>
    exact ⟨[], by simp [scanLoop], rfl, rfl, rfl, rfl, by simp [scanLoop, failedScans],
      by simp [scanLoop, lastScanOk]⟩
  | cons n rest ih =>
    simp only [scanLoop]
    split
    · rename_i err hs
      obtain ⟨l, hl, h1, h2, h3, h4, h5, h6⟩ := ih (mapSet valid n false) true
        (h ++ [Event.scan n, Event.stdout (n ++ bytes ": " ++ err ++ bytes "\n")])
      refine ⟨[Event.scan n, Event.stdout (n ++ bytes ": " ++ err ++ bytes "\n")] ++ l,
        by rw [hl]; simp, ?_, ?_, ?_, ?_, ?_, ?_⟩
      · simp only [scanCalls] at h1; simp [scanCalls, h1]
      · simp only [kubectlCalls] at h2; simp [kubectlCalls, h2]
      · simp only [removeCalls] at h3; simp [removeCalls, h3]
      · simp only [waitCalls] at h4; simp [waitCalls, h4]
      · rw [h5]; simp [failedScans, hs]
      · intro r
        rw [h6 r]
        by_cases hr : n = r
        · subst hr
          simp [lastScanOk, hs, mapGet_mapSet_self]
        · simp [lastScanOk, hr, mapGet_mapSet_other _ _ _ _ _ hr]
    · rename_i hs
      obtain ⟨l, hl, h1, h2, h3, h4, h5, h6⟩ := ih (mapSet valid n true) abort
        (h ++ [Event.scan n])
      refine ⟨[Event.scan n] ++ l, by rw [hl]; simp, ?_, ?_, ?_, ?_, ?_, ?_⟩
      · simp only [scanCalls] at h1; simp [scanCalls, h1]
      · simp only [kubectlCalls] at h2; simp [kubectlCalls, h2]
      · simp only [removeCalls] at h3; simp [removeCalls, h3]
      · simp only [waitCalls] at h4; simp [waitCalls, h4]
      · rw [h5]; simp [failedScans, hs]
      · intro r
        rw [h6 r]
        by_cases hr : n = r
        · subst hr
          simp [lastScanOk, hs, mapGet_mapSet_self]
        · simp [lastScanOk, hr, mapGet_mapSet_other _ _ _ _ _ hr]

theorem removeLoop_spec {δ : Type} (w : World δ) (valid : List (GoString × Bool))
    (live : Bool) (ns : List GoString) (h : List Event) :
    ∃ l, (removeLoop w valid live ns h).2 = h ++ l ∧
      scanCalls l = [] ∧ kubectlCalls l = [] ∧ waitCalls l = [] ∧
      (∀ x ∈ removeCalls l, x ∈ ns) ∧
      ((removeLoop w valid live ns h).1 = none →
        removeCalls l = ns.filter (fun n => mapGet false valid n)) ∧
      (∀ p, (removeLoop w valid live ns h).1 = some p → live = true ∧ copyPanics l ≠ []) := by
  induction ns generalizing h with
  | nil => exact ⟨[], by simp [removeLoop], rfl, rfl, rfl, by simp [removeCalls],
      fun _ => rfl, by simp [removeLoop]⟩
  | cons n rest ih =>
    simp only [removeLoop]
    by_cases hv : mapGet false valid n = true
    · simp only [hv, if_true]
      cases hc1 : copyPanicked w live (h ++ [Event.remove n]) with
      | some p =>
        have hlive : live = true := by
          cases live with
          | true => rfl
          | false => simp [copyPanicked] at hc1
        exact ⟨[Event.remove n, Event.copyPanic p], rfl, rfl, rfl, rfl,
          by simp [removeCalls], by simp, fun _ _ => ⟨hlive, by simp [copyPanics]⟩⟩
      | none =>
        simp only []
        cases hr : w.remove h n with
        | some err =>
          simp only []
          cases hc2 : copyPanicked w live (h ++ [Event.remove n, Event.logPrint err]) with
          | some p =>
            have hlive : live = true := by
              cases live with
              | true => rfl
              | false => simp [copyPanicked] at hc2
            exact ⟨[Event.remove n, Event.logPrint err, Event.copyPanic p], rfl, rfl, rfl,
              rfl, by simp [removeCalls], by simp, fun _ _ => ⟨hlive, by simp [copyPanics]⟩⟩
          | none =>
            simp only []
            obtain ⟨l, hl, h1, h2, h3, h4, h5, h6⟩ :=
              ih (h ++ [Event.remove n, Event.logPrint err])
            refine ⟨[Event.remove n, Event.logPrint err] ++ l, by rw [hl]; simp, ?_, ?_, ?_,
              ?_, ?_, ?_⟩
            · rw [scanCalls_append, h1]; rfl
            · rw [kubectlCalls_append, h2]; rfl
            · rw [waitCalls_append, h3]; rfl
            · intro x hx
              rw [removeCalls_append] at hx
              rcases List.mem_append.mp hx with hx | hx
              · have : x = n := by simpa [removeCalls] using hx
                rw [this]; exact List.mem_cons_self _ _
              · exact List.mem_cons_of_mem _ (h4 x hx)
            · intro hn
              rw [removeCalls_append, h5 hn, List.filter_cons_of_pos (by simpa using hv)]
              rfl
            · intro p hp
              obtain ⟨hl1, hl2⟩ := h6 p hp
              refine ⟨hl1, ?_⟩
              rw [copyPanics_append]
              simpa [copyPanics] using hl2
        | none =>
          simp only []
          obtain ⟨l, hl, h1, h2, h3, h4, h5, h6⟩ := ih (h ++ [Event.remove n])
          refine ⟨[Event.remove n] ++ l, by rw [hl]; simp, ?_, ?_, ?_, ?_, ?_, ?_⟩
          · rw [scanCalls_append, h1]; rfl
          · rw [kubectlCalls_append, h2]; rfl
          · rw [waitCalls_append, h3]; rfl
          · intro x hx
            rw [removeCalls_append] at hx
            rcases List.mem_append.mp hx with hx | hx
            · have : x = n := by simpa [removeCalls] using hx
              rw [this]; exact List.mem_cons_self _ _
            · exact List.mem_cons_of_mem _ (h4 x hx)
          · intro hn
            rw [removeCalls_append, h5 hn, List.filter_cons_of_pos (by simpa using hv)]
            rfl
          · intro p hp
            obtain ⟨hl1, hl2⟩ := h6 p hp
            refine ⟨hl1, ?_⟩
            rw [copyPanics_append]
            simpa [copyPanics] using hl2
    · simp only [hv]
      obtain ⟨l, hl, h1, h2, h3, h4, h5, h6⟩ := ih h
      refine ⟨l, by simpa using hl, h1, h2, h3, fun x hx => List.mem_cons_of_mem _ (h4 x hx),
        ?_, ?_⟩
      · intro hn
        have hn' : (removeLoop w valid live rest h).1 = none := by simpa using hn
        rw [h5 hn', List.filter_cons_of_neg (by simpa using hv)]
      · intro p hp
        exact h6 p (by simpa using hp)

/-- The paths removed by the cleanup loop are an initial segment of the paths of the phase
whose validity flag is true, whether the loop runs to its end or not. -/
theorem removeLoop_prefix {δ : Type} (w : World δ) (valid : List (GoString × Bool))
    (live : Bool) (ns : List GoString) (h : List Event) :
    ∃ l, (removeLoop w valid live ns h).2 = h ++ l ∧
      removeCalls l <+: ns.filter (fun n => mapGet false valid n) := by
  induction ns generalizing h with
  | nil => exact ⟨[], by simp [removeLoop], by simp [removeCalls]⟩
  | cons n rest ih =>
    simp only [removeLoop]
    by_cases hv : mapGet false valid n = true
    · simp only [hv, if_true]
      rw [List.filter_cons_of_pos (by simpa using hv)]
      cases hc1 : copyPanicked w live (h ++ [Event.remove n]) with
      | some p =>
        exact ⟨[Event.remove n, Event.copyPanic p], rfl,
          (List.prefix_cons_inj n).2 List.nil_prefix⟩
      | none =>
        simp only []
        cases hr : w.remove h n with
        | some err =>
          simp only []
          cases hc2 : copyPanicked w live (h ++ [Event.remove n, Event.logPrint err]) with
          | some p =>
            exact ⟨[Event.remove n, Event.logPrint err, Event.copyPanic p], rfl,
              (List.prefix_cons_inj n).2 List.nil_prefix⟩
          | none =>
            simp only []
            obtain ⟨l, hl, hp⟩ := ih (h ++ [Event.remove n, Event.logPrint err])
            refine ⟨[Event.remove n, Event.logPrint err] ++ l, by rw [hl]; simp, ?_⟩
            rw [removeCalls_append]
            exact (List.prefix_cons_inj n).2 hp
        | none =>
          simp only []
          obtain ⟨l, hl, hp⟩ := ih (h ++ [Event.remove n])
          refine ⟨[Event.remove n] ++ l, by rw [hl]; simp, ?_⟩
          rw [removeCalls_append]
          exact (List.prefix_cons_inj n).2 hp
    · simp only [hv]
      rw [List.filter_cons_of_neg (by simpa using hv)]
      exact ih h

theorem expand_log {δ : Type} (w : World δ) (names : List GoString) (data : δ)
    (h : List Event) :
    ∃ l, (expand w names data h).2 = h ++ l ∧ noRunnerCalls l := by
  obtain ⟨l, hl, h1, h2, h3, h4⟩ := expandLoop_log w data names []
    (h ++ [Event.stdout (bytes "expanding " ++ stringsJoin names (bytes " ") ++ bytes "\n")])
  refine ⟨[Event.stdout (bytes "expanding " ++ stringsJoin names (bytes " ") ++ bytes "\n")]
    ++ l, by unfold expand; rw [hl]; simp, ?_, ?_, ?_, ?_⟩
  · rw [scanCalls_append, h1]; rfl
  · rw [kubectlCalls_append, h2]; rfl
  · rw [removeCalls_append, h3]; rfl
  · rw [waitCalls_append, h4]; rfl

theorem phaseLog_eq {δ : Type} (cfg : Config) (w : World δ) (names : List GoString) (data : δ)
    (h l : List Event) (hl : (phase cfg w names data h).2 = h ++ l) :
    phaseLog cfg w names data h = l := by
  simp [phaseLog, hl]

theorem removeLoop_dead {δ : Type} (w : World δ) (valid : List (GoString × Bool))
    (ns : List GoString) (h : List Event) : (removeLoop w valid false ns h).1 = none := by
  obtain ⟨_, _, _, _, _, _, _, h6⟩ := removeLoop_spec w valid false ns h
  cases hr : (removeLoop w valid false ns h).1 with
  | none => rfl
  | some p => exact absurd (h6 p hr).1 (by simp)

/-- The function `phase` written with the projections of its intermediate results. -/
theorem phase_eq {δ : Type} (cfg : Config) (w : World δ) (names : List GoString) (data : δ)
    (h : List Event) :
    phase cfg w names data h =
      match (expand w names data h).1.2 with
      | some err =>
        (Outcome.exited 1, (expand w names data h).2 ++ [Event.stdout (err ++ bytes "\n")])
      | none =>
        let rs := (expand w names data h).1.1
        let s := scanLoop w rs [] false ((expand w names data h).2 ++ [Event.newWaiter])
        if s.1.2 = true then
          (Outcome.returned,
            if cfg.debug = true then s.2 else (removeLoop w s.1.1 false rs s.2).2)
        else
          match (apply w rs s.2).1 with
          | some v => (Outcome.panicked v, (apply w rs s.2).2)
          | none =>
            let c := if cfg.debug = true then (none, (apply w rs s.2).2)
              else removeLoop w s.1.1 true rs (apply w rs s.2).2
            match c.1 with
            | some p => (Outcome.panicked p, c.2)
            | none =>
              match w.copyPanic (c.2 ++ [Event.wait (timeoutDuration cfg.timeout)]) with
              | some p =>
                (Outcome.panicked p,
                  c.2 ++ [Event.wait (timeoutDuration cfg.timeout), Event.copyPanic p])
              | none =>
                (if w.wait c.2 (timeoutDuration cfg.timeout) = true then Outcome.returned
                  else Outcome.panicked (bytes "not ready"),
                  c.2 ++ [Event.wait (timeoutDuration cfg.timeout)]) := by
  unfold phase
  rcases hE : expand w names data h with ⟨⟨rs, e⟩, h1⟩
  cases e with
  | some err => rfl
  | none =>
    simp only []
    rcases hS : scanLoop w rs [] false (h1 ++ [Event.newWaiter]) with ⟨⟨valid, abort⟩, h3⟩
    cases abort with
    | true =>
      cases hd : cfg.debug with
      | true => simp
      | false =>
        have hdead := removeLoop_dead w valid rs h3
        rcases hR : removeLoop w valid false rs h3 with ⟨r1, r2⟩
        rw [hR] at hdead
        simp only [] at hdead
        subst hdead
        simp [hR]
    | false =>
      simp only [Bool.not_false, if_true]
      rcases hA : apply w rs h3 with ⟨pv, h4⟩
      cases pv with
      | some v => simp
      | none =>
        simp only []
        cases hd : cfg.debug with
        | true =>
          simp only [Bool.not_true, Bool.false_eq_true, if_false, if_true]
          cases hc : w.copyPanic (h4 ++ [Event.wait (timeoutDuration cfg.timeout)]) with
          | some p => simp
          | none => cases hw : w.wait h4 (timeoutDuration cfg.timeout) <;> simp
        | false =>
          simp only [Bool.not_false, if_true, Bool.false_eq_true, if_false]
          rcases hR : removeLoop w valid true rs h4 with ⟨r1, r2⟩
          cases r1 with
          | some p => simp
          | none =>
            simp only []
            cases hc : w.copyPanic (r2 ++ [Event.wait (timeoutDuration cfg.timeout)]) with
            | some p => simp
            | none => cases hw : w.wait r2 (timeoutDuration cfg.timeout) <;> simp

/-- The log of a call of `phase` whose expansion succeeded, cut into its parts: the events
of `expand`, the creation of the waiter, the registration loop, and a tail. The tail is the
cleanup alone when a `Scan` failed. Else it starts with the `kubectl` invocation; when that
succeeded the cleanup and the `Wait` follow, unless a copy goroutine ends the process on
the way. -/
theorem phase_shape {δ : Type} (cfg : Config) (w : World δ) (names : List GoString) (data : δ)
    (h : List Event) (rs : List GoString) (hrs : rs = (expand w names data h).1.1)
    (hexp : (expand w names data h).1.2 = none) :
    ∃ lexp ls tail,
      (expand w names data h).2 = h ++ lexp ∧ noRunnerCalls lexp ∧
      (scanLoop w rs [] false (h ++ lexp ++ [Event.newWaiter])).2
        = h ++ lexp ++ [Event.newWaiter] ++ ls ∧
      scanCalls ls = rs ∧ kubectlCalls ls = [] ∧ removeCalls ls = [] ∧ waitCalls ls = [] ∧
      (phase cfg w names data h).2 = h ++ (lexp ++ [Event.newWaiter] ++ ls ++ tail) ∧
      ((abortFlag w names data h = true ∧ (phase cfg w names data h).1 = Outcome.returned ∧
          scanCalls tail = [] ∧ kubectlCalls tail = [] ∧ waitCalls tail = [] ∧
          removeCalls tail = (if cfg.debug = true then [] else rs.filter (fun n =>
            mapGet false (scanLoop w rs [] false (h ++ lexp ++ [Event.newWaiter])).1.1 n))) ∨
       (abortFlag w names data h = false ∧ ∃ line,
          ((∃ v, w.kubectl (h ++ lexp ++ [Event.newWaiter] ++ ls ++ [Event.stdout line])
                (applyArgs rs) = some v ∧
              (phase cfg w names data h).1 = Outcome.panicked v) ∧
            tail = [Event.stdout line, Event.kubectl (applyArgs rs)]) ∨
          (w.kubectl (h ++ lexp ++ [Event.newWaiter] ++ ls ++ [Event.stdout line])
              (applyArgs rs) = none ∧
            ∃ lr p, tail = [Event.stdout line, Event.kubectl (applyArgs rs)] ++ lr ∧
              (phase cfg w names data h).1 = Outcome.panicked p ∧
              scanCalls lr = [] ∧ kubectlCalls lr = [] ∧ (∀ x ∈ removeCalls lr, x ∈ rs) ∧
              copyPanics lr ≠ [] ∧
              removeCalls lr <+: (if cfg.debug = true then [] else rs.filter (fun n =>
                mapGet false (scanLoop w rs [] false (h ++ lexp ++ [Event.newWaiter])).1.1 n))) ∨
          (w.kubectl (h ++ lexp ++ [Event.newWaiter] ++ ls ++ [Event.stdout line])
              (applyArgs rs) = none ∧
            ∃ lr, tail = [Event.stdout line, Event.kubectl (applyArgs rs)] ++ lr
                ++ [Event.wait (timeoutDuration cfg.timeout)] ∧
              scanCalls lr = [] ∧ kubectlCalls lr = [] ∧ waitCalls lr = [] ∧
              removeCalls lr = (if cfg.debug = true then [] else rs.filter (fun n =>
                mapGet false (scanLoop w rs [] false (h ++ lexp ++ [Event.newWaiter])).1.1 n)) ∧
              (phase cfg w names data h).1
                = if w.wait (h ++ lexp ++ [Event.newWaiter] ++ ls
                      ++ [Event.stdout line, Event.kubectl (applyArgs rs)] ++ lr)
                    (timeoutDuration cfg.timeout) = true
                  then Outcome.returned else Outcome.panicked (bytes "not ready")))) := by
  obtain ⟨lexp, hlexp, hq⟩ := expand_log w names data h
  have hph := phase_eq cfg w names data h
  rw [hexp] at hph
  simp only [← hrs] at hph
  obtain ⟨ls, hls, hs1, hs2, hs3, hs4, _, _⟩ :=
    scanLoop_spec w rs [] false (h ++ lexp ++ [Event.newWaiter])
  have hab : abortFlag w names data h
      = (scanLoop w rs [] false (h ++ lexp ++ [Event.newWaiter])).1.2 := by
    unfold abortFlag; rw [← hrs, hlexp]
  rw [hlexp] at hph
  refine ⟨lexp, ls, ?_⟩
  rw [hab]
  generalize hS : scanLoop w rs [] false (h ++ lexp ++ [Event.newWaiter]) = S at hph hls
  obtain ⟨⟨valid, abort⟩, h3⟩ := S
  simp only [] at hph hls ⊢
  subst hls
  cases abort with
  | true =>
    simp only [if_true] at hph
    obtain ⟨lr, hlr, hr1, hr2, hr3, _, hr5, _⟩ :=
      removeLoop_spec w valid false rs (h ++ lexp ++ [Event.newWaiter] ++ ls)
    have hr5' := hr5 (removeLoop_dead w valid rs _)
    cases hd : cfg.debug with
    | true =>
      rw [hd] at hph
      simp only [if_true] at hph
      refine ⟨[], hlexp, hq, rfl, hs1, hs2, hs3, hs4, by rw [hph]; simp,
        Or.inl ⟨rfl, by rw [hph], rfl, rfl, rfl, by simp [removeCalls]⟩⟩
    | false =>
      rw [hd] at hph
      simp only [Bool.false_eq_true, if_false] at hph
      refine ⟨lr, hlexp, hq, rfl, hs1, hs2, hs3, hs4, by rw [hph]; simp only []; rw [hlr]; simp,
        Or.inl ⟨rfl, by rw [hph], hr1, hr2, hr3, by simpa using hr5'⟩⟩
  | false =>
    simp only [Bool.false_eq_true, if_false, apply] at hph
    generalize hline : bytes "kubectl " ++ stringsJoin (applyArgs rs) (bytes " ")
        ++ bytes "\n" = line at hph
    cases hk : w.kubectl (h ++ lexp ++ [Event.newWaiter] ++ ls ++ [Event.stdout line])
        (applyArgs rs) with
    | some v =>
      rw [hk] at hph
      simp only [] at hph
      refine ⟨[Event.stdout line, Event.kubectl (applyArgs rs)], hlexp, hq, rfl,
        hs1, hs2, hs3, hs4, by rw [hph]; simp,
        Or.inr ⟨rfl, line, Or.inl ⟨⟨v, hk, by rw [hph]⟩, rfl⟩⟩⟩
    | none =>
      rw [hk] at hph
      simp only [] at hph
      cases hc0 : w.copyPanic (h ++ lexp ++ [Event.newWaiter] ++ ls
          ++ [Event.stdout line, Event.kubectl (applyArgs rs)]) with
      | some p =>
        rw [hc0] at hph
        simp only [] at hph
        refine ⟨[Event.stdout line, Event.kubectl (applyArgs rs)] ++ [Event.copyPanic p],
          hlexp, hq, rfl, hs1, hs2, hs3, hs4, by rw [hph]; simp,
          Or.inr ⟨rfl, line, Or.inr (Or.inl ⟨hk, [Event.copyPanic p], p, rfl, by rw [hph],
            rfl, rfl, by simp [removeCalls], by simp [copyPanics],
            by simp [removeCalls]⟩)⟩⟩
      | none =>
        rw [hc0] at hph
        simp only [] at hph
        cases hd : cfg.debug with
        | true =>
          rw [hd] at hph
          simp only [if_true] at hph
          cases hc : w.copyPanic (h ++ lexp ++ [Event.newWaiter] ++ ls
              ++ [Event.stdout line, Event.kubectl (applyArgs rs)]
              ++ [Event.wait (timeoutDuration cfg.timeout)]) with
          | some p =>
            rw [hc] at hph
            simp only [] at hph
            refine ⟨[Event.stdout line, Event.kubectl (applyArgs rs)]
                ++ [Event.wait (timeoutDuration cfg.timeout), Event.copyPanic p],
              hlexp, hq, rfl, hs1, hs2, hs3, hs4, by rw [hph]; simp,
              Or.inr ⟨rfl, line, Or.inr (Or.inl ⟨hk,
                [Event.wait (timeoutDuration cfg.timeout), Event.copyPanic p], p, rfl,
                by rw [hph], rfl, rfl, by simp [removeCalls], by simp [copyPanics],
                by simp [removeCalls]⟩)⟩⟩
          | none =>
            rw [hc] at hph
            simp only [] at hph
            refine ⟨[Event.stdout line, Event.kubectl (applyArgs rs)] ++ []
                ++ [Event.wait (timeoutDuration cfg.timeout)],
              hlexp, hq, rfl, hs1, hs2, hs3, hs4, by rw [hph]; simp,
              Or.inr ⟨rfl, line, Or.inr (Or.inr ⟨hk, [], rfl, rfl, rfl, rfl, rfl,
                by rw [hph]; simp⟩)⟩⟩
        | false =>
          rw [hd] at hph
          simp only [Bool.false_eq_true, if_false] at hph
          obtain ⟨lr, hlr, hr1, hr2, hr3, hr4, hr5, hr6⟩ := removeLoop_spec w valid true rs
            (h ++ lexp ++ [Event.newWaiter] ++ ls
              ++ [Event.stdout line, Event.kubectl (applyArgs rs)])
          have hpre : removeCalls lr <+: rs.filter (fun n => mapGet false valid n) := by
            obtain ⟨l2, hl2, hp2⟩ := removeLoop_prefix w valid true rs
              (h ++ lexp ++ [Event.newWaiter] ++ ls
                ++ [Event.stdout line, Event.kubectl (applyArgs rs)])
            have : l2 = lr := List.append_cancel_left (hl2.symm.trans hlr)
            rw [← this]; exact hp2
          generalize hR : removeLoop w valid true rs (h ++ lexp ++ [Event.newWaiter] ++ ls
              ++ [Event.stdout line, Event.kubectl (applyArgs rs)]) = R at hph hlr hr5 hr6
          obtain ⟨c1, c2⟩ := R
          simp only [] at hph hlr hr5 hr6
          subst hlr
          cases c1 with
          | some p =>
            simp only [] at hph
            refine ⟨[Event.stdout line, Event.kubectl (applyArgs rs)] ++ lr,
              hlexp, hq, rfl, hs1, hs2, hs3, hs4, by rw [hph]; simp,
              Or.inr ⟨rfl, line, Or.inr (Or.inl ⟨hk, lr, p, rfl, by rw [hph], hr1, hr2, hr4,
                (hr6 p rfl).2, by simpa using hpre⟩)⟩⟩
          | none =>
            simp only [] at hph
            have hr5' := hr5 rfl
            cases hc : w.copyPanic (h ++ lexp ++ [Event.newWaiter] ++ ls
                ++ [Event.stdout line, Event.kubectl (applyArgs rs)] ++ lr
                ++ [Event.wait (timeoutDuration cfg.timeout)]) with
            | some p =>
              rw [hc] at hph
              simp only [] at hph
              refine ⟨[Event.stdout line, Event.kubectl (applyArgs rs)]
                  ++ (lr ++ [Event.wait (timeoutDuration cfg.timeout), Event.copyPanic p]),
                hlexp, hq, rfl, hs1, hs2, hs3, hs4, by rw [hph]; simp,
                Or.inr ⟨rfl, line, Or.inr (Or.inl ⟨hk,
                  lr ++ [Event.wait (timeoutDuration cfg.timeout), Event.copyPanic p], p, rfl,
                  by rw [hph], ?_, ?_, ?_, ?_, ?_⟩)⟩⟩
              · rw [scanCalls_append, hr1]; rfl
              · rw [kubectlCalls_append, hr2]; rfl
              · intro x hx
                rw [removeCalls_append] at hx
                rcases List.mem_append.mp hx with hx | hx
                · exact hr4 x hx
                · simp [removeCalls] at hx
              · rw [copyPanics_append]; simp [copyPanics]
              · rw [removeCalls_append, hr5']
                simp [removeCalls]
            | none =>
              rw [hc] at hph
              simp only [] at hph
              refine ⟨[Event.stdout line, Event.kubectl (applyArgs rs)] ++ lr
                  ++ [Event.wait (timeoutDuration cfg.timeout)],
                hlexp, hq, rfl, hs1, hs2, hs3, hs4, by rw [hph]; simp,
                Or.inr ⟨rfl, line, Or.inr (Or.inr ⟨hk, lr, rfl, hr1, hr2, hr3,
                  by simpa using hr5', by rw [hph]⟩)⟩⟩

/-- What one call of `phase` does, read off its log `pl`: the five ways it can run. -/
theorem phase_summary {δ : Type} (cfg : Config) (w : World δ) (names : List GoString)
    (data : δ) (h pl : List Event) (rs : List GoString)
    (hpl : pl = phaseLog cfg w names data h)
    (hrs : rs = (expand w names data h).1.1) :
    (phase cfg w names data h).2 = h ++ pl ∧
    (((expand w names data h).1.2 ≠ none ∧ (phase cfg w names data h).1 = Outcome.exited 1 ∧
        scanCalls pl = [] ∧ kubectlCalls pl = [] ∧ removeCalls pl = [] ∧ waitCalls pl = []) ∨
     ((expand w names data h).1.2 = none ∧ failedScans w h pl ≠ [] ∧
        (phase cfg w names data h).1 = Outcome.returned ∧
        scanCalls pl = rs ∧ kubectlCalls pl = [] ∧
        removeCalls pl
          = (if cfg.debug = true then [] else rs.filter (fun r => lastScanOk w r h pl false)) ∧
        waitCalls pl = []) ∨
     ((expand w names data h).1.2 = none ∧ failedScans w h pl = [] ∧
        failedApplies w h pl ≠ [] ∧ (∃ v, (phase cfg w names data h).1 = Outcome.panicked v) ∧
        scanCalls pl = rs ∧ kubectlCalls pl = [applyArgs rs] ∧ removeCalls pl = [] ∧
        waitCalls pl = []) ∨
     ((expand w names data h).1.2 = none ∧ failedScans w h pl = [] ∧
        failedApplies w h pl = [] ∧
        scanCalls pl = rs ∧ kubectlCalls pl = [applyArgs rs] ∧
        removeCalls pl
          = (if cfg.debug = true then [] else rs.filter (fun r => lastScanOk w r h pl false)) ∧
        waitCalls pl = [timeoutDuration cfg.timeout] ∧
        ∃ b, waitAnswers w h pl = [b] ∧
          (phase cfg w names data h).1
            = if b = true then Outcome.returned else Outcome.panicked (bytes "not ready")) ∨
     ((expand w names data h).1.2 = none ∧ failedScans w h pl = [] ∧
        failedApplies w h pl = [] ∧ copyPanics pl ≠ [] ∧
        (∃ p, (phase cfg w names data h).1 = Outcome.panicked p) ∧
        scanCalls pl = rs ∧ kubectlCalls pl = [applyArgs rs] ∧
        (∀ x ∈ removeCalls pl, x ∈ rs) ∧
        removeCalls pl <+:
          (if cfg.debug = true then [] else rs.filter (fun r => lastScanOk w r h pl false)))) := by
  cases hE : (expand w names data h).1.2 with
  | some err =>
    obtain ⟨lexp, hexp, he1, he2, he3, he4⟩ := expand_log w names data h
    have hph := phase_eq cfg w names data h
    rw [hE] at hph
    simp only [] at hph
    have hlog : (phase cfg w names data h).2
        = h ++ (lexp ++ [Event.stdout (err ++ bytes "\n")]) := by
      rw [hph, hexp]; simp
    have hpl' : pl = lexp ++ [Event.stdout (err ++ bytes "\n")] :=
      hpl.trans (phaseLog_eq _ _ _ _ _ _ hlog)
    refine ⟨by rw [hlog, hpl'], Or.inl ⟨by simp, by rw [hph], ?_, ?_, ?_, ?_⟩⟩
    · rw [hpl', scanCalls_append, he1]; rfl
    · rw [hpl', kubectlCalls_append, he2]; rfl
    · rw [hpl', removeCalls_append, he3]; rfl
    · rw [hpl', waitCalls_append, he4]; rfl
  | none =>
    obtain ⟨lexp, ls, tail, hlexp, ⟨he1, he2, he3, he4⟩, hls, hs1, hs2, hs3, hs4, hlog, hcase⟩ :=
      phase_shape cfg w names data h rs hrs hE
    have hpl' : pl = lexp ++ [Event.newWaiter] ++ ls ++ tail :=
      hpl.trans (phaseLog_eq _ _ _ _ _ _ hlog)
    obtain ⟨l, hl, _, _, _, _, hs5, hs6⟩ :=
      scanLoop_spec w rs [] false (h ++ lexp ++ [Event.newWaiter])
    have hll : l = ls := List.append_cancel_left (hl.symm.trans hls)
    subst hll
    have hab : abortFlag w names data h
        = decide (failedScans w (h ++ lexp ++ [Event.newWaiter]) l ≠ []) := by
      unfold abortFlag
      rw [← hrs, hlexp, hs5]
      simp
    have hv : ∀ r, mapGet false
        (scanLoop w rs [] false (h ++ lexp ++ [Event.newWaiter])).1.1 r
          = lastScanOk w r (h ++ lexp ++ [Event.newWaiter]) l false := by
      intro r; rw [hs6 r]; rfl
    have hfs : ∀ tl, scanCalls tl = [] →
        failedScans w h (lexp ++ [Event.newWaiter] ++ l ++ tl)
          = failedScans w (h ++ lexp ++ [Event.newWaiter]) l := by
      intro tl ht
      rw [failedScans_append, failedScans_append, failedScans_append,
        failedScans_of_no_scan w lexp h he1, failedScans_of_no_scan w tl _ ht]
      simp [failedScans, List.append_assoc]
    have hlo : ∀ tl r, scanCalls tl = [] →
        lastScanOk w r h (lexp ++ [Event.newWaiter] ++ l ++ tl) false
          = lastScanOk w r (h ++ lexp ++ [Event.newWaiter]) l false := by
      intro tl r ht
      rw [lastScanOk_append, lastScanOk_append, lastScanOk_append,
        lastScanOk_of_no_scan w r lexp h _ he1, lastScanOk_of_no_scan w r tl _ _ ht]
      simp [lastScanOk, List.append_assoc]
    have hfa : ∀ line tl, kubectlCalls tl = [] →
        failedApplies w h (lexp ++ [Event.newWaiter] ++ l
            ++ ([Event.stdout line, Event.kubectl (applyArgs rs)] ++ tl))
          = if (w.kubectl (h ++ lexp ++ [Event.newWaiter] ++ l ++ [Event.stdout line])
                (applyArgs rs)).isSome then [applyArgs rs] else [] := by
      intro line tl ht
      rw [failedApplies_append, failedApplies_append, failedApplies_append,
        failedApplies_append, failedApplies_of_no_kubectl w lexp h he2,
        failedApplies_of_no_kubectl w l _ hs2, failedApplies_of_no_kubectl w tl _ ht]
      simp [failedApplies, List.append_assoc]
    have hfilter : ∀ tl, scanCalls tl = [] →
        rs.filter (fun n => mapGet false
          (scanLoop w rs [] false (h ++ lexp ++ [Event.newWaiter])).1.1 n)
        = rs.filter (fun r => lastScanOk w r h (lexp ++ [Event.newWaiter] ++ l ++ tl) false) := by
      intro tl ht
      congr 1; funext r
      rw [hv r, hlo tl r ht]
    refine ⟨by rw [hlog, hpl'], Or.inr ?_⟩
    rcases hcase with ⟨habt, hout, ht1, ht2, ht3, ht4⟩ |
      ⟨habf, line, ⟨⟨v, hk, hout⟩, htail⟩ |
        ⟨hk, lr, p, htail, hout, hr1, hr2, hr4, hcp, hpre⟩ |
        ⟨hk, lr, htail, hr1, hr2, hr3, hr5, hout⟩⟩
    · -- a Scan failed
      have hne : failedScans w (h ++ lexp ++ [Event.newWaiter]) l ≠ [] := by
        rw [hab] at habt; simpa using habt
      refine Or.inl ⟨rfl, ?_, hout, ?_, ?_, ?_, ?_⟩
      · rw [hpl', hfs tail ht1]; exact hne
      · rw [hpl']; simp only [scanCalls_append, he1, hs1, ht1]; simp [scanCalls]
      · rw [hpl']; simp only [kubectlCalls_append, he2, hs2, ht2]; simp [kubectlCalls]
      · rw [hpl']
        simp only [removeCalls_append, he3, hs3, ht4]
        rw [hfilter tail ht1]
        simp [removeCalls]
      · rw [hpl']; simp only [waitCalls_append, he4, hs4, ht3]; simp [waitCalls]
    · -- kubectl failed
      have hnone : failedScans w (h ++ lexp ++ [Event.newWaiter]) l = [] := by
        rw [hab] at habf; simpa using habf
      have hsc : scanCalls tail = [] := by rw [htail]; rfl
      refine Or.inr (Or.inl ⟨rfl, ?_, ?_, ⟨v, hout⟩, ?_, ?_, ?_, ?_⟩)
      · rw [hpl', hfs tail hsc]; exact hnone
      · have := hfa line [] rfl
        rw [hpl', htail]
        rw [List.append_nil] at this
        rw [this, hk]; simp
      · rw [hpl']; simp only [scanCalls_append, he1, hs1, hsc]; simp [scanCalls]
      · rw [hpl', htail]; simp only [kubectlCalls_append, he2, hs2]; simp [kubectlCalls]
      · rw [hpl', htail]; simp only [removeCalls_append, he3, hs3]; simp [removeCalls]
      · rw [hpl', htail]; simp only [waitCalls_append, he4, hs4]; simp [waitCalls]
    · -- a copy goroutine panicked
      have hnone : failedScans w (h ++ lexp ++ [Event.newWaiter]) l = [] := by
        rw [hab] at habf; simpa using habf
      have hsc : scanCalls tail = [] := by
        rw [htail, scanCalls_append, hr1]; rfl
      refine Or.inr (Or.inr (Or.inr ⟨rfl, ?_, ?_, ?_, ⟨p, hout⟩, ?_, ?_, ?_, ?_⟩))
      · rw [hpl', hfs tail hsc]; exact hnone
      · rw [hpl', htail, hfa line lr hr2, hk]; simp
      · rw [hpl', htail]
        simp only [copyPanics_append]
        intro hnil
        have := (List.append_eq_nil.mp ((List.append_eq_nil.mp hnil).2)).2
        exact hcp this
      · rw [hpl']; simp only [scanCalls_append, he1, hs1, hsc]; simp [scanCalls]
      · rw [hpl', htail]; simp only [kubectlCalls_append, he2, hs2, hr2]; simp [kubectlCalls]
      · intro x hx
        rw [hpl', htail] at hx
        simp only [removeCalls_append, he3, hs3] at hx
        have hx' : x ∈ removeCalls lr := by simpa [removeCalls] using hx
        exact hr4 x hx'
      · rw [hpl']
        rw [← hfilter tail hsc, htail]
        simp only [removeCalls_append, he3, hs3]
        simpa [removeCalls] using hpre
    · -- the phase ran to the end of its Wait
      have hnone : failedScans w (h ++ lexp ++ [Event.newWaiter]) l = [] := by
        rw [hab] at habf; simpa using habf
      have hsc0 : scanCalls (lr ++ [Event.wait (timeoutDuration cfg.timeout)]) = [] := by
        rw [scanCalls_append, hr1]; rfl
      have hkc0 : kubectlCalls (lr ++ [Event.wait (timeoutDuration cfg.timeout)]) = [] := by
        rw [kubectlCalls_append, hr2]; rfl
      have htail' : tail = [Event.stdout line, Event.kubectl (applyArgs rs)]
          ++ (lr ++ [Event.wait (timeoutDuration cfg.timeout)]) := by
        rw [htail, List.append_assoc]
      have hsc : scanCalls tail = [] := by
        rw [htail', scanCalls_append, hsc0]; rfl
      refine Or.inr (Or.inr (Or.inl ⟨rfl, ?_, ?_, ?_, ?_, ?_, ?_, ?_⟩))
      · rw [hpl', hfs tail hsc]; exact hnone
      · rw [hpl', htail', hfa line _ hkc0, hk]; simp
      · rw [hpl']; simp only [scanCalls_append, he1, hs1, hsc]; simp [scanCalls]
      · rw [hpl', htail]; simp only [kubectlCalls_append, he2, hs2, hr2]; simp [kubectlCalls]
      · rw [hpl']
        rw [← hfilter tail hsc, ← hr5, htail]
        simp only [removeCalls_append, he3, hs3]
        simp [removeCalls]
      · rw [hpl', htail]; simp only [waitCalls_append, he4, hs4, hr3]; simp [waitCalls]
      · refine ⟨w.wait (h ++ lexp ++ [Event.newWaiter] ++ l
            ++ [Event.stdout line, Event.kubectl (applyArgs rs)] ++ lr)
            (timeoutDuration cfg.timeout), ?_, hout⟩
        rw [hpl', htail]
        simp only [waitAnswers_append, waitAnswers_of_no_wait w lexp h he4,
          waitAnswers_of_no_wait w l _ hs4, waitAnswers_of_no_wait w lr _ hr3]
        simp [waitAnswers, List.append_assoc]

theorem foldl_applyArgs (rs acc : List GoString) :
    rs.foldl (fun args n => args ++ [bytes "-f", n]) acc
      = acc ++ rs.flatMap (fun r => [bytes "-f", r]) := by
  induction rs generalizing acc with
  | nil => simp
  | cons r rs ih => simp [List.foldl_cons, ih, List.flatMap_cons]

theorem applyArgs_eq (rs : List GoString) :
    applyArgs rs = bytes "apply" :: rs.flatMap (fun r => [bytes "-f", r]) := by
  simp [applyArgs, foldl_applyArgs]

theorem failedScans_subset {δ : Type} (w : World δ) (l h : List Event) (r : GoString)
    (hr : r ∈ failedScans w h l) : r ∈ scanCalls l := by
  induction l generalizing h with
  | nil => simp [failedScans] at hr
  | cons e l ih =>
    have hc : scanCalls (e :: l) = scanCalls [e] ++ scanCalls l :=
      scanCalls_append [e] l
    rw [hc]
    cases e with
    | scan n =>
      simp only [failedScans, List.mem_append] at hr
      rcases hr with hr | hr
      · split_ifs at hr
        · have : r = n := by simpa using hr
          subst this
          simp [scanCalls]
        · simp at hr
      · exact List.mem_append_right _ (ih _ hr)
    | _ =>
      simp only [failedScans] at hr
      exact List.mem_append_right _ (ih _ hr)

theorem lastScanOk_of_not_mem {δ : Type} (w : World δ) (r : GoString) (l h : List Event)
    (cur : Bool) (hr : r ∉ scanCalls l) : lastScanOk w r h l cur = cur := by
  induction l generalizing h cur with
  | nil => rfl
  | cons e l ih =>
    have hc : scanCalls (e :: l) = scanCalls [e] ++ scanCalls l :=
      scanCalls_append [e] l
    rw [hc, List.mem_append, not_or] at hr
    cases e with
    | scan n =>
      have hne : ¬ n = r := by
        intro hn; apply hr.1; subst hn; simp [scanCalls]
      simp only [lastScanOk, hne, if_false]
      exact ih _ _ hr.2
    | _ =>
      simp only [lastScanOk]
      exact ih _ _ hr.2

/-- In a log that scans no path twice, a path whose `Scan` failed has the validity flag
false. -/
theorem lastScanOk_of_failed {δ : Type} (w : World δ) (r : GoString) (l h : List Event)
    (cur : Bool) (hnd : (scanCalls l).Nodup) (hr : r ∈ failedScans w h l) :
    lastScanOk w r h l cur = false := by
  induction l generalizing h cur with
  | nil => simp [failedScans] at hr
  | cons e l ih =>
    have hc : scanCalls (e :: l) = scanCalls [e] ++ scanCalls l :=
      scanCalls_append [e] l
    rw [hc] at hnd
    cases e with
    | scan n =>
      have hnd' : n ∉ scanCalls l ∧ (scanCalls l).Nodup := by
        simpa [scanCalls] using hnd
      simp only [failedScans, List.mem_append] at hr
      by_cases hn : n = r
      · subst hn
        rcases hr with hr | hr
        · split_ifs at hr with hs
          · simp only [lastScanOk, if_true]
            rw [lastScanOk_of_not_mem w n l _ _ hnd'.1]
            cases hsc : w.scan h n with
            | none => simp [hsc] at hs
            | some e => rfl
          · simp at hr
        · exact absurd (failedScans_subset w l _ n hr) hnd'.1
      · rcases hr with hr | hr
        · split_ifs at hr
          · exact absurd (by simpa using hr : r = n).symm hn
          · simp at hr
        · simp only [lastScanOk, hn, if_false]
          exact ih _ _ hnd'.2 hr
    | _ =>
      have hnd' : (scanCalls l).Nodup := by simpa [scanCalls] using hnd
      simp only [failedScans] at hr
      simp only [lastScanOk]
      exact ih _ _ hnd' hr

/-- C6 as stated fails on the phase `a.yaml`, `a.yaml` (the file was named twice on the command line), debug off,
the first `Scan` failing: the registration of `a.yaml.o` failed, and its deletion is
requested all the same, the second `Scan` of the same path having set its flag to true. -/
theorem C6_failed_path_deleted :
    (expand firstScanFails [bytes "a.yaml", bytes "a.yaml"] () []).1.2 = none ∧
    failedApplies firstScanFails []
      (phaseLog ⟨false, 60⟩ firstScanFails [bytes "a.yaml", bytes "a.yaml"] () []) = [] ∧
    bytes "a.yaml.o" ∈ failedScans firstScanFails []
      (phaseLog ⟨false, 60⟩ firstScanFails [bytes "a.yaml", bytes "a.yaml"] () []) ∧
    bytes "a.yaml.o" ∈ removeCalls
      (phaseLog ⟨false, 60⟩ firstScanFails [bytes "a.yaml", bytes "a.yaml"] () []) := by
  decide

/-- C6 (amended): in a phase that reaches the cleanup step (expansion succeeded, `kubectl`
did not fail), with debug on nothing is removed; with debug off `os.Remove` is called, in
the order of the phase, only on rendered paths whose validity flag is true, the flag of a
path being the outcome of its last `Scan`, and when the rendered paths are pairwise
distinct no path whose `Scan` failed is removed. When no copy goroutine of `apply` ends the
process, with debug off the paths removed are exactly the rendered paths whose flag is
true, and whatever `os.Remove` answers the phase goes on: `Wait` is called unless a `Scan`
failed, and the phase ends by returning or by the panic for a watcher that is not ready. -/
theorem C6_cleanup {δ : Type} (cfg : Config) (w : World δ) (names : List GoString) (data : δ)
    (h : List Event)
    (hexp : (expand w names data h).1.2 = none)
    (hreach : failedApplies w h (phaseLog cfg w names data h) = []) :
    (cfg.debug = true → removeCalls (phaseLog cfg w names data h) = []) ∧
    (removeCalls (phaseLog cfg w names data h)
      <+: (expand w names data h).1.1.filter
            (fun r => lastScanOk w r h (phaseLog cfg w names data h) false)) ∧
    ((expand w names data h).1.1.Nodup →
      ∀ r ∈ failedScans w h (phaseLog cfg w names data h),
        r ∉ removeCalls (phaseLog cfg w names data h)) ∧
    (copyPanics (phaseLog cfg w names data h) = [] →
      (cfg.debug = false →
        removeCalls (phaseLog cfg w names data h)
          = (expand w names data h).1.1.filter
              (fun r => lastScanOk w r h (phaseLog cfg w names data h) false)) ∧
      waitCalls (phaseLog cfg w names data h)
        = (if failedScans w h (phaseLog cfg w names data h) = [] then
            [timeoutDuration cfg.timeout] else []) ∧
      ((phase cfg w names data h).1 = Outcome.returned ∨
        (phase cfg w names data h).1 = Outcome.panicked (bytes "not ready"))) := by
  obtain ⟨_, hs⟩ := phase_summary cfg w names data h _ _ rfl rfl
  have hrm : scanCalls (phaseLog cfg w names data h) = (expand w names data h).1.1 ∧
      (removeCalls (phaseLog cfg w names data h)
        <+: (if cfg.debug = true then [] else (expand w names data h).1.1.filter
            (fun r => lastScanOk w r h (phaseLog cfg w names data h) false))) ∧
      (copyPanics (phaseLog cfg w names data h) = [] →
        removeCalls (phaseLog cfg w names data h)
          = (if cfg.debug = true then [] else (expand w names data h).1.1.filter
              (fun r => lastScanOk w r h (phaseLog cfg w names data h) false)) ∧
        waitCalls (phaseLog cfg w names data h)
          = (if failedScans w h (phaseLog cfg w names data h) = [] then
              [timeoutDuration cfg.timeout] else []) ∧
        ((phase cfg w names data h).1 = Outcome.returned ∨
          (phase cfg w names data h).1 = Outcome.panicked (bytes "not ready"))) := by
    rcases hs with hA | hB | hC | hD | hE
    · exact absurd hexp hA.1
    · obtain ⟨_, hf, ho, hsc, _, hr, hw⟩ := hB
      exact ⟨hsc, by rw [hr], fun _ => ⟨hr, by rw [hw, if_neg hf], Or.inl ho⟩⟩
    · exact absurd hreach hC.2.2.1
    · obtain ⟨_, hf, _, hsc, _, hr, hw, b, _, ho⟩ := hD
      refine ⟨hsc, by rw [hr], fun _ => ⟨hr, by rw [hw, if_pos hf], ?_⟩⟩
      cases b
      · exact Or.inr (by simpa using ho)
      · exact Or.inl (by simpa using ho)
    · obtain ⟨_, _, _, hcp, _, hsc, _, _, hpre⟩ := hE
      exact ⟨hsc, hpre, fun hc => absurd hc hcp⟩
  obtain ⟨h2, hpre, hfull⟩ := hrm
  have hsub : removeCalls (phaseLog cfg w names data h)
      <+: (expand w names data h).1.1.filter
            (fun r => lastScanOk w r h (phaseLog cfg w names data h) false) := by
    cases hd : cfg.debug with
    | true =>
      rw [hd, if_pos rfl, List.prefix_nil] at hpre
      rw [hpre]; exact List.nil_prefix
    | false =>
      rw [hd] at hpre
      simpa using hpre
  refine ⟨?_, hsub, ?_, ?_⟩
  · intro hd
    rw [hd, if_pos rfl, List.prefix_nil] at hpre
    exact hpre
  · intro hnd r hr hmem
    rw [← h2] at hnd
    have hfalse := lastScanOk_of_failed w r _ h false hnd hr
    have hmem2 := hsub.subset hmem
    rw [List.mem_filter, hfalse] at hmem2
    exact absurd hmem2.2 (by simp)
  · intro hc
    obtain ⟨h1, h3, h4⟩ := hfull hc
    refine ⟨?_, h3, h4⟩
    intro hd; rw [h1, if_neg (by simp [hd])]

/-- Two files, `Scan` failing on the second and `os.Remove` failing on every path: the
first file only is removed, and the phase returns. -/
theorem C6_cleanup_witness :
    (expand (removeFails (bytes "b.yaml.o")) [bytes "a.yaml", bytes "b.yaml"] () []).1.2 = none ∧
    failedApplies (removeFails (bytes "b.yaml.o")) []
      (phaseLog ⟨false, 60⟩ (removeFails (bytes "b.yaml.o")) [bytes "a.yaml", bytes "b.yaml"] ()
        []) = [] ∧
    copyPanics
      (phaseLog ⟨false, 60⟩ (removeFails (bytes "b.yaml.o")) [bytes "a.yaml", bytes "b.yaml"] ()
        []) = [] ∧
    removeCalls
      (phaseLog ⟨false, 60⟩ (removeFails (bytes "b.yaml.o")) [bytes "a.yaml", bytes "b.yaml"] ()
        []) = [bytes "a.yaml.o"] ∧
    (phase ⟨false, 60⟩ (removeFails (bytes "b.yaml.o")) [bytes "a.yaml", bytes "b.yaml"] ()
        []).1 = Outcome.returned :=
  ⟨by decide, by decide, by decide,
    (((C6_cleanup ⟨false, 60⟩ (removeFails (bytes "b.yaml.o")) [bytes "a.yaml", bytes "b.yaml"]
      () [] (by decide) (by decide)).2.2.2 (by decide)).1 rfl).trans (by decide),
    by decide⟩

theorem parseCalls_append (a b : List Event) :
    parseCalls (a ++ b) = parseCalls a ++ parseCalls b := by
  simp [parseCalls]

theorem writeCalls_append (a b : List Event) :
    writeCalls (a ++ b) = writeCalls a ++ writeCalls b := by
  simp [writeCalls]

theorem expand_eq_loop {δ : Type} (w : World δ) (names : List GoString) (data : δ)
    (h : List Event) :
    expand w names data h = expandLoop w data names [] (expandStart names h) := rfl

theorem expandLog_eq {δ : Type} (w : World δ) (names : List GoString) (data : δ)
    (h l : List Event) (hl : (expand w names data h).2 = h ++ l) :
    expandLog w names data h = l := by
  simp [expandLog, hl]

/-- A duration of `timeout` seconds fits `time.Duration` when `timeout` is at most
9223372036 in absolute value. -/
theorem timeoutDuration_in_range (t : Int) (h1 : -9223372036 ≤ t) (h2 : t ≤ 9223372036) :
    timeoutDuration t = t * 1000000000 := by
  unfold timeoutDuration wrapInt64 timeSecond
  omega

/-- The waiting step of `phase` after a successful expansion: no `Wait` and a normal return
when a `Scan` failed; otherwise, `kubectl` having succeeded and no copy goroutine having
ended the process, one `Wait` with the duration `time.Duration(timeout) * time.Second`, and
the panic exactly when `Wait` answers false. -/
theorem phase_wait {δ : Type} (cfg : Config) (w : World δ) (names : List GoString) (data : δ)
    (h : List Event) (hexp : (expand w names data h).1.2 = none) :
    (failedScans w h (phaseLog cfg w names data h) ≠ [] →
      waitCalls (phaseLog cfg w names data h) = [] ∧
        (phase cfg w names data h).1 = Outcome.returned) ∧
    (failedScans w h (phaseLog cfg w names data h) = [] →
      failedApplies w h (phaseLog cfg w names data h) = [] →
      copyPanics (phaseLog cfg w names data h) = [] →
      waitCalls (phaseLog cfg w names data h) = [timeoutDuration cfg.timeout] ∧
      ∃ b, waitAnswers w h (phaseLog cfg w names data h) = [b] ∧
        ((phase cfg w names data h).1 = Outcome.returned ↔ b = true) ∧
        ((phase cfg w names data h).1 = Outcome.panicked (bytes "not ready") ↔ b = false)) := by
  obtain ⟨_, hs⟩ := phase_summary cfg w names data h _ _ rfl rfl
  constructor
  · intro hf
    rcases hs with hA | hB | hC | hD | hE
    · exact absurd hexp hA.1
    · exact ⟨hB.2.2.2.2.2.2, hB.2.2.1⟩
    · exact absurd hC.2.1 hf
    · exact absurd hD.2.1 hf
    · exact absurd hE.2.1 hf
  · intro hf ha hcp
    rcases hs with hA | hB | hC | hD | hE
    · exact absurd hexp hA.1
    · exact absurd hf hB.2.1
    · exact absurd ha hC.2.2.1
    · obtain ⟨_, _, _, _, _, _, hw, b, hb, ho⟩ := hD
      refine ⟨hw, b, hb, ?_, ?_⟩
      · rw [ho]; cases b <;> simp
      · rw [ho]; cases b <;> simp
    · exact absurd hcp hE.2.2.2.1

/-- C7 at the flag `-t 9223372037`: the phase calls `Wait` once, with the negative duration
-9223372036709551616 ns to which the `int64` product wraps, not with 9223372037 seconds. -/
theorem C7_timeout_wraps :
    waitCalls (phaseLog ⟨false, 9223372037⟩ (quietWorld []) [bytes "a.yaml"] () [])
      = [-9223372036709551616] ∧
    (9223372037 : Int) * timeSecond = 9223372037000000000 := by
  decide

theorem expand_fail_core {δ : Type} (w : World δ) (data : δ) (l1 : List GoString)
    (n : GoString) (l2 : List GoString) (hs : List Event)
    (hpre : (expandLoop w data l1 [] hs).1.2 = none)
    (hat : (expandLoop w data (l1 ++ [n]) [] hs).1.2 ≠ none) :
    expandLoop w data (l1 ++ n :: l2) [] hs = expandLoop w data (l1 ++ [n]) [] hs ∧
    ∃ l, (expandLoop w data (l1 ++ [n]) [] hs).2 = hs ++ l ∧ parseCalls l = l1 ++ [n] := by
  have e1 := expandLoop_append w data l1 [n] [] hs hpre
  have e2 := expandLoop_append w data l1 (n :: l2) [] hs hpre
  rw [e1] at hat
  refine ⟨by rw [e1, e2]; exact expandLoop_fail_here w data n l2 _ _ hat, ?_⟩
  obtain ⟨_, la, hla, hpa, _⟩ := expandLoop_ok w data l1 [] hs hpre
  obtain ⟨lb, hlb, hpb⟩ := expandLoop_single_parse w data n
    (expandLoop w data l1 [] hs).1.1 (expandLoop w data l1 [] hs).2
  refine ⟨la ++ lb, ?_, by rw [parseCalls_append, hpa, hpb]⟩
  rw [e1, hlb, hla, List.append_assoc]

/-- C8: when the first failure of a parse, execute or write step happens at the file of
index `i`, `expand` runs as it does on the first `i + 1` files alone: `ParseFiles` is called
on these files and on no later one, and the result is the nil slice with an error. `phase`
then ends the process with `os.Exit(1)`, without any call of `Scan`, `kubectl`, `os.Remove`
or `Wait`. -/
theorem C8_expand_failure_aborts {δ : Type} (cfg : Config) (w : World δ)
    (names : List GoString) (data : δ) (h : List Event) (i : Nat) (hi : i < names.length)
    (hpre : (expandLoop w data (names.take i) [] (expandStart names h)).1.2 = none)
    (hat : (expandLoop w data (names.take (i + 1)) [] (expandStart names h)).1.2 ≠ none) :
    expand w names data h = expandLoop w data (names.take (i + 1)) [] (expandStart names h) ∧
    parseCalls (expandLog w names data h) = names.take (i + 1) ∧
    (expand w names data h).1.1 = [] ∧
    (expand w names data h).1.2 ≠ none ∧
    (phase cfg w names data h).1 = Outcome.exited 1 ∧
    scanCalls (phaseLog cfg w names data h) = [] ∧
    kubectlCalls (phaseLog cfg w names data h) = [] ∧
    removeCalls (phaseLog cfg w names data h) = [] ∧
    waitCalls (phaseLog cfg w names data h) = [] := by
  have htake : names.take (i + 1) = names.take i ++ [names[i]] := by
    rw [List.take_succ, List.getElem?_eq_getElem hi]; rfl
  have hnames : names = names.take i ++ names[i] :: names.drop (i + 1) := by
    rw [← List.drop_eq_getElem_cons hi, List.take_append_drop]
  rw [htake] at hat
  obtain ⟨hc1, l, hl, hp⟩ := expand_fail_core w data (names.take i) names[i]
    (names.drop (i + 1)) (expandStart names h) hpre hat
  rw [← hnames] at hc1
  have heq : expand w names data h
      = expandLoop w data (names.take i ++ [names[i]]) [] (expandStart names h) := by
    rw [expand_eq_loop, hc1]
  have hne : (expand w names data h).1.2 ≠ none := by rw [heq]; exact hat
  have hlog : (expand w names data h).2
      = h ++ ([Event.stdout (bytes "expanding " ++ stringsJoin names (bytes " ") ++ bytes "\n")]
          ++ l) := by
    rw [heq, hl]; simp [expandStart]
  obtain ⟨_, hs⟩ := phase_summary cfg w names data h _ _ rfl rfl
  refine ⟨by rw [heq, htake], ?_, ?_, hne, ?_⟩
  · rw [expandLog_eq w names data h _ hlog, parseCalls_append, hp, htake]; rfl
  · rw [heq]; exact expandLoop_err w data _ _ _ hat
  · rcases hs with hA | hB | hC | hD | hE
    · exact hA.2
    · exact absurd hB.1 hne
    · exact absurd hC.1 hne
    · exact absurd hD.1 hne
    · exact absurd hE.1 hne

/-- The second of three files does not parse: the third is never looked at, and the process
exits before any registration or apply. -/
theorem C8_expand_failure_aborts_witness :
    (expand (parseFailsOn (bytes "b.yaml")) [bytes "a.yaml", bytes "b.yaml", bytes "c.yaml"] ()
        []).1 = ([], some (bytes "b.yaml: unexpected EOF")) ∧
    parseCalls (expandLog (parseFailsOn (bytes "b.yaml"))
        [bytes "a.yaml", bytes "b.yaml", bytes "c.yaml"] () [])
      = [bytes "a.yaml", bytes "b.yaml"] ∧
    (phase ⟨false, 60⟩ (parseFailsOn (bytes "b.yaml"))
        [bytes "a.yaml", bytes "b.yaml", bytes "c.yaml"] () []).1 = Outcome.exited 1 ∧
    scanCalls (phaseLog ⟨false, 60⟩ (parseFailsOn (bytes "b.yaml"))
        [bytes "a.yaml", bytes "b.yaml", bytes "c.yaml"] () []) = [] ∧
    kubectlCalls (phaseLog ⟨false, 60⟩ (parseFailsOn (bytes "b.yaml"))
        [bytes "a.yaml", bytes "b.yaml", bytes "c.yaml"] () []) = [] :=
  have key := C8_expand_failure_aborts ⟨false, 60⟩ (parseFailsOn (bytes "b.yaml"))
    [bytes "a.yaml", bytes "b.yaml", bytes "c.yaml"] () [] 1 (by decide) (by decide)
    (by decide)
  ⟨by decide, key.2.1, key.2.2.2.2.1, key.2.2.2.2.2.1, key.2.2.2.2.2.2.1⟩

/-- C9 as stated fails when the file `a.yaml` cannot be written: the error of `expand` is annotated with the
rendered path `a.yaml.o`, not with the manifest path `a.yaml`. -/
theorem C9_write_error_names_rendered_path :
    (expand writeFails [bytes "a.yaml"] () []).1.2
      = some (bytes "a.yaml.o" ++ bytes ": " ++ bytes "permission denied") ∧
    (expand writeFails [bytes "a.yaml"] () []).1.2
      ≠ some (bytes "a.yaml" ++ bytes ": " ++ bytes "permission denied") := by
  decide

/-- C9 (amended): let `expand` reach the file `n` after the files `l1` were processed
without failure, the log being `h1` then. If `ParseFiles` fails with the text `e`, or
`ExecuteTemplate` does, the error of `expand` reads `n`, `": "`, `e`; if `WriteFile` fails
with the text `e`, it reads `n`, `".o"`, `": "`, `e`: a write error is annotated with the
rendered path. -/
theorem C9_error_text {δ : Type} (w : World δ) (data : δ) (l1 : List GoString)
    (n : GoString) (l2 : List GoString) (h h1 : List Event)
    (hpre : (expandLoop w data l1 [] (expandStart (l1 ++ n :: l2) h)).1.2 = none)
    (hh1 : h1 = (expandLoop w data l1 [] (expandStart (l1 ++ n :: l2) h)).2) :
    (∀ e, w.parseFiles h1 n = some e →
      (expand w (l1 ++ n :: l2) data h).1.2 = some (n ++ bytes ": " ++ e)) ∧
    (∀ e, w.parseFiles h1 n = none →
      w.executeTemplate (h1 ++ [Event.parseFiles n]) (filepath.Base n) data = Except.error e →
      (expand w (l1 ++ n :: l2) data h).1.2 = some (n ++ bytes ": " ++ e)) ∧
    (∀ buf e, w.parseFiles h1 n = none →
      w.executeTemplate (h1 ++ [Event.parseFiles n]) (filepath.Base n) data = Except.ok buf →
      w.writeFile (h1 ++ [Event.parseFiles n, Event.executeTemplate (filepath.Base n)])
        (n ++ bytes ".o") buf 0o644 = some e →
      (expand w (l1 ++ n :: l2) data h).1.2 = some (n ++ bytes ".o" ++ bytes ": " ++ e)) := by
  have e2 := expandLoop_append w data l1 (n :: l2) [] (expandStart (l1 ++ n :: l2) h) hpre
  rw [expand_eq_loop, e2, ← hh1]
  refine ⟨?_, ?_, ?_⟩
  · intro e hp
    simp only [expandLoop, hp]
  · intro e hp he
    simp only [expandLoop, hp, he]
  · intro buf e hp he hw
    simp only [expandLoop, hp, he, hw]

/-- The second of two files does not parse: the error names `b.yaml`. -/
theorem C9_error_text_witness :
    (expandLoop (parseFailsOn (bytes "b.yaml")) () [bytes "a.yaml"] []
        (expandStart ([bytes "a.yaml"] ++ bytes "b.yaml" :: []) [])).1.2 = none ∧
    (parseFailsOn (bytes "b.yaml")).parseFiles
        (expandLoop (parseFailsOn (bytes "b.yaml")) () [bytes "a.yaml"] []
          (expandStart ([bytes "a.yaml"] ++ bytes "b.yaml" :: []) [])).2 (bytes "b.yaml")
      = some (bytes "unexpected EOF") ∧
    (expand (parseFailsOn (bytes "b.yaml")) ([bytes "a.yaml"] ++ bytes "b.yaml" :: []) () []).1.2
      = some (bytes "b.yaml" ++ bytes ": " ++ bytes "unexpected EOF") :=
  ⟨by decide, by decide,
    (C9_error_text (parseFailsOn (bytes "b.yaml")) () [bytes "a.yaml"] (bytes "b.yaml") []
      [] _ (by decide) rfl).1 (bytes "unexpected EOF") (by decide)⟩

/-- The loop of `expand` fails exactly when one of its parse, execute or write calls gets
an error for an answer. -/
theorem expandLoop_steps {δ : Type} (w : World δ) (data : δ) :
    ∀ (ns result : List GoString) (h : List Event),
      ∃ l, (expandLoop w data ns result h).2 = h ++ l ∧
        (failedSteps w data h l = [] ↔ (expandLoop w data ns result h).1.2 = none) := by
  intro ns
  induction ns with
  | nil => intro result h; exact ⟨[], by simp [expandLoop], by simp [expandLoop, failedSteps]⟩
  | cons n rest ih =>
    intro result h
    cases hp : w.parseFiles h n with
    | some err =>
      refine ⟨[Event.parseFiles n], by simp [expandLoop, hp], ?_⟩
      simp [expandLoop, failedSteps, hp]
    | none =>
      cases he : w.executeTemplate (h ++ [Event.parseFiles n]) (filepath.Base n) data with
      | error err =>
        refine ⟨[Event.parseFiles n, Event.executeTemplate (filepath.Base n)],
          by simp [expandLoop, hp, he], ?_⟩
        simp [expandLoop, failedSteps, hp, he]
      | ok buf =>
        cases hw : w.writeFile
            (h ++ [Event.parseFiles n, Event.executeTemplate (filepath.Base n)])
            (n ++ bytes ".o") buf 0o644 with
        | some err =>
          refine ⟨[Event.parseFiles n, Event.executeTemplate (filepath.Base n),
            Event.writeFile (n ++ bytes ".o") buf 0o644], by simp [expandLoop, hp, he, hw], ?_⟩
          simp [expandLoop, failedSteps, hp, he, hw]
        | none =>
          obtain ⟨l, hl, hiff⟩ := ih (result ++ [n ++ bytes ".o"])
            (h ++ [Event.parseFiles n, Event.executeTemplate (filepath.Base n),
              Event.writeFile (n ++ bytes ".o") buf 0o644])
          refine ⟨[Event.parseFiles n, Event.executeTemplate (filepath.Base n),
            Event.writeFile (n ++ bytes ".o") buf 0o644] ++ l, ?_, ?_⟩
          · simp only [expandLoop, hp, he, hw]; rw [hl]; simp
          · simp only [expandLoop, hp, he, hw]
            rw [← hiff]
            simp [failedSteps, hp, he, hw]

/-- The function `expand` returns a nil error exactly when every one of its parse, execute
and write calls gets a success for an answer. -/
theorem expand_ok_iff {δ : Type} (w : World δ) (names : List GoString) (data : δ)
    (h : List Event) :
    failedSteps w data h (expandLog w names data h) = [] ↔ (expand w names data h).1.2 = none := by
  obtain ⟨l, hl, hiff⟩ := expandLoop_steps w data names [] (expandStart names h)
  have hlog : (expand w names data h).2
      = h ++ ([Event.stdout (bytes "expanding " ++ stringsJoin names (bytes " ") ++ bytes "\n")]
          ++ l) := by
    rw [expand_eq_loop, hl]; simp [expandStart]
  rw [expandLog_eq w names data h _ hlog, expand_eq_loop, ← hiff]
  simp [failedSteps, expandStart]

/-- In a world whose parse, execute and write calls always answer with a success, no step
of any log failed. -/
theorem failedSteps_of_ok {δ : Type} (w : World δ) (data : δ)
    (hp : ∀ h n, w.parseFiles h n = none)
    (he : ∀ h name, ∃ buf, w.executeTemplate h name data = Except.ok buf)
    (hw : ∀ h out content perm, w.writeFile h out content perm = none) :
    ∀ (l h : List Event), failedSteps w data h l = [] := by
  intro l
  induction l with
  | nil => intro h; simp [failedSteps]
  | cons e l ih =>
    intro h
    cases e with
    | parseFiles n => simp [failedSteps, hp, ih]
    | executeTemplate name =>
      obtain ⟨buf, hb⟩ := he h name
      simp [failedSteps, hb, ih]
    | writeFile out content perm => simp [failedSteps, hw, ih]
    | stdout s => simp [failedSteps, ih]
    | logPrint s => simp [failedSteps, ih]
    | newWaiter => simp [failedSteps, ih]
    | scan n => simp [failedSteps, ih]
    | kubectl args => simp [failedSteps, ih]
    | remove n => simp [failedSteps, ih]
    | wait d => simp [failedSteps, ih]
    | copyPanic p => simp [failedSteps, ih]

/-- C10: when every parse, execute and write step of `expand` succeeds (each of these calls
gets a success for an answer from its collaborator), `expand` returns a nil error and the
slice returned is the list of the manifest paths, each with `.o` appended, in the same
order and of the same length, whatever the data context and the rendered content; the
files are parsed in this order and every `WriteFile` targets the rendered path. -/
theorem C10_expand_paths {δ : Type} (w : World δ) (names : List GoString) (data : δ)
    (h : List Event) (hok : failedSteps w data h (expandLog w names data h) = []) :
    (expand w names data h).1 = (names.map (fun n => n ++ bytes ".o"), none) ∧
    ((expand w names data h).1.1).length = names.length ∧
    parseCalls (expandLog w names data h) = names ∧
    writeCalls (expandLog w names data h) = names.map (fun n => n ++ bytes ".o") := by
  have hnone : (expand w names data h).1.2 = none := (expand_ok_iff w names data h).1 hok
  rw [expand_eq_loop] at hnone
  obtain ⟨h1, l, hl, hp, hw⟩ := expandLoop_ok w data names [] (expandStart names h) hnone
  have hlog : (expand w names data h).2
      = h ++ ([Event.stdout (bytes "expanding " ++ stringsJoin names (bytes " ") ++ bytes "\n")]
          ++ l) := by
    rw [expand_eq_loop, hl]; simp [expandStart]
  have hres : (expand w names data h).1 = (names.map (fun n => n ++ bytes ".o"), none) := by
    rw [expand_eq_loop]
    exact Prod.ext (by rw [h1]; simp) hnone
  refine ⟨hres, by rw [hres, List.length_map], ?_, ?_⟩
  · rw [expandLog_eq w names data h _ hlog, parseCalls_append, hp]; rfl
  · rw [expandLog_eq w names data h _ hlog, writeCalls_append, hw]; rfl

/-- Two manifests in a directory, rendered next to their sources: every step succeeds. -/
theorem C10_expand_paths_witness :
    failedSteps (quietWorld (bytes "kind: Pod")) () []
      (expandLog (quietWorld (bytes "kind: Pod"))
        [bytes "k8s/00-ns.yaml", bytes "k8s/app.yaml"] () []) = [] ∧
    (expand (quietWorld (bytes "kind: Pod")) [bytes "k8s/00-ns.yaml", bytes "k8s/app.yaml"] ()
        []).1 = ([bytes "k8s/00-ns.yaml.o", bytes "k8s/app.yaml.o"], none) :=
  ⟨by decide,
    (C10_expand_paths (quietWorld (bytes "kind: Pod"))
      [bytes "k8s/00-ns.yaml", bytes "k8s/app.yaml"] () [] (by decide)).1.trans (by decide)⟩

theorem isPhaseKey_cases (k : GoString) (hk : isPhaseKey k) :
    ∃ a b c : UInt8, k = [a, b, c] ∧ 48 ≤ a.toNat ∧ a.toNat ≤ 57 ∧ 48 ≤ b.toNat ∧
      b.toNat ≤ 57 ∧ c.toNat = 45 := by
  obtain ⟨hlen, hd⟩ := hk
  rcases k with _ | ⟨a, _ | ⟨b, _ | ⟨c, _ | ⟨d, rest⟩⟩⟩⟩
  · simp at hlen
  · simp at hlen
  · simp at hlen
  · simp only [digitDigitDash, Bool.and_eq_true, decide_eq_true_eq] at hd
    exact ⟨a, b, c, rfl, hd.1.1.1, hd.1.1.2, hd.1.2.1, hd.1.2.2, hd.2⟩
  · simp at hlen

theorem digitDigitDash_take (b : GoString) (hb : digitDigitDash b = true) :
    isPhaseKey (b.take 3) ∧ b.take 3 <+: b := by
  rcases b with _ | ⟨a, _ | ⟨b, _ | ⟨c, rest⟩⟩⟩
  · simp [digitDigitDash] at hb
  · simp [digitDigitDash] at hb
  · simp [digitDigitDash] at hb
  · refine ⟨⟨by simp, ?_⟩, List.take_prefix _ _⟩
    simpa [digitDigitDash] using hb

theorem phaseKey_some (x k : GoString) (h : phaseKey x = some k) :
    digitDigitDash (filepath.Base x) = true ∧ (filepath.Base x).take 3 = k := by
  unfold phaseKey at h
  split_ifs at h with hd
  exact ⟨hd, Option.some.inj h⟩

theorem phaseKey_none (x : GoString) (h : phaseKey x = none) :
    digitDigitDash (filepath.Base x) = false := by
  unfold phaseKey at h
  split_ifs at h with hd
  simpa using hd

theorem mem_seenKeys (paths : List GoString) (k : GoString) :
    k ∈ seenKeys paths ↔ ∃ x ∈ paths, phaseKey x = some k := by
  simp [seenKeys, List.mem_filterMap]

theorem seenKeys_isPhaseKey (paths : List GoString) (k : GoString) (hk : k ∈ seenKeys paths) :
    isPhaseKey k := by
  obtain ⟨x, _, hx⟩ := (mem_seenKeys paths k).mp hk
  obtain ⟨hd, ht⟩ := phaseKey_some x k hx
  rw [← ht]
  exact (digitDigitDash_take _ hd).1

theorem strLess_iff_keyNumber (k1 k2 : GoString) (h1 : isPhaseKey k1) (h2 : isPhaseKey k2) :
    strLess k1 k2 = true ↔ keyNumber k1 < keyNumber k2 := by
  obtain ⟨a, b, c, rfl, ha1, ha2, hb1, hb2, hc⟩ := isPhaseKey_cases k1 h1
  obtain ⟨a', b', c', rfl, ha1', ha2', hb1', hb2', hc'⟩ := isPhaseKey_cases k2 h2
  simp only [strLess, keyNumber]
  split_ifs <;> simp <;> omega

/-- C15: every key of the map is a valid key `DD-`; on valid keys the order of
`sort.Strings` is the order of the numbers `00..99` that their digits write; so the keys
that `phases` has sorted stand in strictly ascending numeric order, and the keyed phases
are emitted in ascending numeric order of their prefix: of two keyed phases of the result,
every path of the earlier one has a prefix with a smaller number than every path of the
later one. -/
theorem C15_key_order_numeric (paths ks : List GoString)
    (hks : ks.Perm (mapKeys (addFiles paths).prefixes)) :
    (∀ k ∈ mapKeys (addFiles paths).prefixes, isPhaseKey k) ∧
    (∀ k1 k2 : GoString, isPhaseKey k1 → isPhaseKey k2 →
      ((strLess k1 k2 = true ↔ keyNumber k1 < keyNumber k2) ∧
        keyNumber k1 ≤ 99 ∧ keyNumber k2 ≤ 99)) ∧
    (sortStrings ks).Pairwise (fun a b => keyNumber a < keyNumber b) ∧
    ((addFiles paths).phasesFrom ks).dropLast
      = (sortStrings ks).map (fun k => mapGet [] (addFiles paths).prefixes k) ∧
    ((addFiles paths).phasesFrom ks).dropLast.Pairwise (fun ph1 ph2 =>
      ∀ x ∈ ph1, ∀ y ∈ ph2,
        keyNumber ((filepath.Base x).take 3) < keyNumber ((filepath.Base y).take 3)) := by
  have hseen : ks.Perm (seenKeys paths) := hks.trans (mapKeys_perm_seenKeys paths)
  have hsort : sortStrings ks = sortStrings (seenKeys paths) :=
    sortStrings_eq_of_perm ks _ hseen
  have hpw : (sortStrings (seenKeys paths)).Pairwise
      (fun a b => keyNumber a < keyNumber b) := by
    have hs := sortStrings_strict (seenKeys paths) (List.nodup_dedup _)
    have hmem : ∀ k ∈ sortStrings (seenKeys paths), isPhaseKey k := fun k hk =>
      seenKeys_isPhaseKey paths k ((sortStrings_perm _).mem_iff.mp hk)
    refine (List.Pairwise.and_mem.mp hs).imp ?_
    rintro a b ⟨ha, hb, hab⟩
    exact (strLess_iff_keyNumber a b (hmem a ha) (hmem b hb)).mp hab
  refine ⟨?_, ?_, ?_, ?_, ?_⟩
  · intro k hk
    exact seenKeys_isPhaseKey paths k ((mapKeys_perm_seenKeys paths).mem_iff.mp hk)
  · intro k1 k2 h1 h2
    refine ⟨strLess_iff_keyNumber k1 k2 h1 h2, ?_, ?_⟩
    · obtain ⟨a, b, c, rfl, ha1, ha2, hb1, hb2, hc⟩ := isPhaseKey_cases k1 h1
      simp only [keyNumber]; omega
    · obtain ⟨a, b, c, rfl, ha1, ha2, hb1, hb2, hc⟩ := isPhaseKey_cases k2 h2
      simp only [keyNumber]; omega
  · rw [hsort]; exact hpw
  · unfold Phaser.phasesFrom
    rw [List.dropLast_concat]
  · rw [phasesFrom_eq paths ks hks, List.dropLast_concat, List.pairwise_map]
    refine hpw.imp ?_
    intro a b hab x hx y hy
    have hxa : phaseKey x = some a := by simpa using (List.mem_filter.mp hx).2
    have hyb : phaseKey y = some b := by simpa using (List.mem_filter.mp hy).2
    rw [(phaseKey_some x a hxa).2, (phaseKey_some y b hyb).2]
    exact hab

/-- The keys `10-` and `09-`, met in this order: the phase of `09-` is emitted first. -/
theorem C15_key_order_numeric_witness :
    [bytes "10-", bytes "09-"].Perm
      (mapKeys (addFiles [bytes "10-b.yaml", bytes "x.yaml", bytes "d/09-a.yaml"]).prefixes) ∧
    ((addFiles [bytes "10-b.yaml", bytes "x.yaml", bytes "d/09-a.yaml"]).phasesFrom
        [bytes "10-", bytes "09-"]).dropLast.Pairwise (fun ph1 ph2 =>
      ∀ x ∈ ph1, ∀ y ∈ ph2,
        keyNumber ((filepath.Base x).take 3) < keyNumber ((filepath.Base y).take 3)) :=
  ⟨by decide,
    (C15_key_order_numeric [bytes "10-b.yaml", bytes "x.yaml", bytes "d/09-a.yaml"]
      [bytes "10-", bytes "09-"] (by decide)).2.2.2.2⟩

theorem count_flatMap_filter {α κ : Type} [DecidableEq α] [DecidableEq κ] (key : α → Option κ)
    (l : List α) (a : α) (K : List κ) (hnd : K.Nodup) :
    (K.flatMap (fun k => l.filter (fun x => decide (key x = some k)))).count a
      = if (∃ k ∈ K, key a = some k) then l.count a else 0 := by
  induction K with
  | nil => simp
  | cons k0 K ih =>
    obtain ⟨hk0, hnd'⟩ := List.nodup_cons.mp hnd
    rw [List.flatMap_cons, List.count_append, ih hnd']
    by_cases h0 : key a = some k0
    · have hno : ¬ ∃ k ∈ K, key a = some k := by
        rintro ⟨k, hk, hka⟩
        rw [h0] at hka
        exact hk0 (Option.some.inj hka ▸ hk)
      have hyes : ∃ k ∈ k0 :: K, key a = some k := ⟨k0, by simp, h0⟩
      rw [if_neg hno, if_pos hyes, List.count_filter (by simpa using h0)]
      rfl
    · have hcount : (l.filter (fun x => decide (key x = some k0))).count a = 0 := by
        apply List.count_eq_zero_of_not_mem
        intro hm
        exact h0 (by simpa using (List.mem_filter.mp hm).2)
      have hiff : (∃ k ∈ k0 :: K, key a = some k) ↔ ∃ k ∈ K, key a = some k := by
        constructor
        · rintro ⟨k, hk, hka⟩
          rcases List.mem_cons.mp hk with rfl | hk
          · exact absurd hka h0
          · exact ⟨k, hk, hka⟩
        · rintro ⟨k, hk, hka⟩
          exact ⟨k, List.mem_cons_of_mem _ hk, hka⟩
      rw [hcount, Nat.zero_add]
      simp only [hiff]

/-- The groups of a list by key, taken over pairwise distinct keys that cover the keys of
the list, and the keyless elements make up the list. -/
theorem groups_perm {α κ : Type} [DecidableEq α] [DecidableEq κ] (key : α → Option κ)
    (l : List α) (K : List κ)
    (hnd : K.Nodup) (hall : ∀ x ∈ l, ∀ k, key x = some k → k ∈ K) :
    (K.flatMap (fun k => l.filter (fun x => decide (key x = some k)))
      ++ l.filter (fun x => decide (key x = none))).Perm l := by
  rw [List.perm_iff_count]
  intro a
  rw [List.count_append, count_flatMap_filter key l a K hnd]
  cases hka : key a with
  | none =>
    rw [if_neg (by simp), List.count_filter (by simp [hka])]
    simp
  | some k =>
    have h2 : (l.filter (fun x => decide (key x = none))).count a = 0 := by
      apply List.count_eq_zero_of_not_mem
      intro hm
      have := (List.mem_filter.mp hm).2
      simp [hka] at this
    rw [h2]
    by_cases hmem : a ∈ l
    · rw [if_pos ⟨k, hall a hmem k hka, rfl⟩]; rfl
    · rw [List.count_eq_zero_of_not_mem hmem]; simp

/-- C16: after any sequence of `AddFile` calls on a new Phaser, the lists returned by
`phases`, joined, are a permutation of the sequence of paths added, duplicates counted: no
path is lost or invented, and the lengths of the phases add up to the number of calls. -/
theorem C16_phases_partition (paths ks : List GoString)
    (hks : ks.Perm (mapKeys (addFiles paths).prefixes)) :
    ((addFiles paths).phasesFrom ks).flatten.Perm paths ∧
    (((addFiles paths).phasesFrom ks).map List.length).sum = paths.length := by
  have hperm : ((addFiles paths).phasesFrom ks).flatten.Perm paths := by
    rw [phasesFrom_eq paths ks hks]
    have hnd : (sortStrings (seenKeys paths)).Nodup :=
      ((sortStrings_perm _).nodup_iff).mpr (List.nodup_dedup _)
    have hall : ∀ x ∈ paths, ∀ k, phaseKey x = some k → k ∈ sortStrings (seenKeys paths) := by
      intro x hx k hk
      exact (sortStrings_perm _).mem_iff.mpr ((mem_seenKeys paths k).mpr ⟨x, hx, hk⟩)
    have := groups_perm phaseKey paths (sortStrings (seenKeys paths)) hnd hall
    simpa [List.flatten_append, List.flatMap] using this
  exact ⟨hperm, by rw [← List.length_flatten, hperm.length_eq]⟩

/-- A path added twice, among a keyed and a keyless path. -/
theorem C16_phases_partition_witness :
    [bytes "10-", bytes "00-"].Perm
      (mapKeys (addFiles [bytes "10-b.yaml", bytes "x.yaml", bytes "00-a.yaml",
        bytes "x.yaml"]).prefixes) ∧
    ((addFiles [bytes "10-b.yaml", bytes "x.yaml", bytes "00-a.yaml",
        bytes "x.yaml"]).phasesFrom [bytes "10-", bytes "00-"]).flatten.Perm
      [bytes "10-b.yaml", bytes "x.yaml", bytes "00-a.yaml", bytes "x.yaml"] :=
  ⟨by decide,
    (C16_phases_partition [bytes "10-b.yaml", bytes "x.yaml", bytes "00-a.yaml", bytes "x.yaml"]
      [bytes "10-", bytes "00-"] (by decide)).1⟩

/-- C19: after any sequence of `AddFile` calls on a new Phaser, every phase returned by
`phases` except the last is non-empty and its paths have base names that start with one and
the same key, two digits and a dash; no path of the last phase has a base name of the shape
digit, digit, dash. -/
theorem C19_phase_contents (paths ks : List GoString)
    (hks : ks.Perm (mapKeys (addFiles paths).prefixes)) :
    (∀ ph ∈ ((addFiles paths).phasesFrom ks).dropLast,
      ph ≠ [] ∧ ∃ k, isPhaseKey k ∧ ∀ x ∈ ph, k <+: filepath.Base x) ∧
    (∀ last, ((addFiles paths).phasesFrom ks).getLast? = some last →
      ∀ x ∈ last, digitDigitDash (filepath.Base x) = false) := by
  rw [phasesFrom_eq paths ks hks]
  constructor
  · rw [List.dropLast_concat]
    intro ph hph
    obtain ⟨k, hk, rfl⟩ := List.mem_map.mp hph
    have hk' : k ∈ seenKeys paths := (sortStrings_perm _).mem_iff.mp hk
    obtain ⟨x, hx, hxk⟩ := (mem_seenKeys paths k).mp hk'
    refine ⟨?_, k, seenKeys_isPhaseKey paths k hk', ?_⟩
    · intro hnil
      have : x ∈ paths.filter (fun x => decide (phaseKey x = some k)) :=
        List.mem_filter.mpr ⟨hx, by simpa using hxk⟩
      rw [hnil] at this
      simp at this
    · intro y hy
      have hyk : phaseKey y = some k := by simpa using (List.mem_filter.mp hy).2
      obtain ⟨hd, ht⟩ := phaseKey_some y k hyk
      rw [← ht]
      exact (digitDigitDash_take _ hd).2
  · intro last hlast x hx
    rw [List.getLast?_concat] at hlast
    have hl := Option.some.inj hlast
    subst hl
    exact phaseKey_none x (by simpa using (List.mem_filter.mp hx).2)

/-- Two keys and two keyless files. -/
theorem C19_phase_contents_witness :
    [bytes "00-", bytes "10-"].Perm
      (mapKeys (addFiles [bytes "d/10-b.yaml", bytes "x.yaml", bytes "00-a.yaml",
        bytes "1-y.yaml"]).prefixes) ∧
    (∀ ph ∈ ((addFiles [bytes "d/10-b.yaml", bytes "x.yaml", bytes "00-a.yaml",
        bytes "1-y.yaml"]).phasesFrom [bytes "00-", bytes "10-"]).dropLast,
      ph ≠ [] ∧ ∃ k, isPhaseKey k ∧ ∀ x ∈ ph, k <+: filepath.Base x) :=
  ⟨by decide,
    (C19_phase_contents [bytes "d/10-b.yaml", bytes "x.yaml", bytes "00-a.yaml",
      bytes "1-y.yaml"] [bytes "00-", bytes "10-"] (by decide)).1⟩

/-- C13: `envBool` reads the value of the variable, lower-cased and with surrounding white
space trimmed, against its table: false exactly for `false`, `no`, `0` and the empty string
(which is also the value of a variable that is not set), true for `true`, `yes`, `1` and
for every other value. -/
theorem C13_envBool_table (u : UnicodeTables) (getenv : GoString → GoString)
    (name : GoString) :
    (envBool u getenv name = false ↔
      (stringsTrimSpace u (stringsToLower u (getenv name)) = bytes "false" ∨
       stringsTrimSpace u (stringsToLower u (getenv name)) = bytes "no" ∨
       stringsTrimSpace u (stringsToLower u (getenv name)) = bytes "0" ∨
       stringsTrimSpace u (stringsToLower u (getenv name)) = bytes "")) ∧
    ((stringsTrimSpace u (stringsToLower u (getenv name)) = bytes "true" ∨
      stringsTrimSpace u (stringsToLower u (getenv name)) = bytes "yes" ∨
      stringsTrimSpace u (stringsToLower u (getenv name)) = bytes "1") →
      envBool u getenv name = true) ∧
    ((getenv name = bytes "true" ∨ getenv name = bytes "yes" ∨ getenv name = bytes "1") →
      envBool u getenv name = true) ∧
    ((getenv name = bytes "false" ∨ getenv name = bytes "no" ∨ getenv name = bytes "0" ∨
      getenv name = bytes "") → envBool u getenv name = false) ∧
    (getenv name = bytes "on" → envBool u getenv name = true) := by
  have key : ∀ s : GoString,
      ((if s = bytes "true" then true
        else if s = bytes "yes" then true
        else if s = bytes "1" then true
        else if s = bytes "false" then false
        else if s = bytes "no" then false
        else if s = bytes "0" then false
        else if s = bytes "" then false
        else true) = false ↔
        (s = bytes "false" ∨ s = bytes "no" ∨ s = bytes "0" ∨ s = bytes "")) := by
    intro s
    by_cases h1 : s = bytes "true"
    · subst h1; decide
    by_cases h2 : s = bytes "yes"
    · subst h2; decide
    by_cases h3 : s = bytes "1"
    · subst h3; decide
    by_cases h4 : s = bytes "false"
    · subst h4; decide
    by_cases h5 : s = bytes "no"
    · subst h5; decide
    by_cases h6 : s = bytes "0"
    · subst h6; decide
    by_cases h7 : s = bytes ""
    · subst h7; decide
    simp [h1, h2, h3, h4, h5, h6, h7]
  have hiff := key (stringsTrimSpace u (stringsToLower u (getenv name)))
  refine ⟨hiff, ?_, ?_, ?_, ?_⟩
  · intro h
    cases hb : envBool u getenv name with
    | true => rfl
    | false =>
      have := hiff.mp hb
      rcases h with h | h | h <;> rw [h] at this <;> revert this <;> decide
  · rintro (h | h | h) <;> simp only [envBool, h] <;> rfl
  · rintro (h | h | h | h) <;> simp only [envBool, h] <;> rfl
  · intro h
    simp only [envBool, h]
    rfl

/-- The variable set to `TRUE` between blanks, and to `No` before a line feed. -/
theorem C13_envBool_table_witness :
    envBool noTables (fun _ => bytes " TRUE ") (bytes "KUBEAPPLY_DEBUG") = true ∧
    envBool noTables (fun _ => bytes "No\n") (bytes "KUBEAPPLY_DEBUG") = false :=
  ⟨(C13_envBool_table noTables (fun _ => bytes " TRUE ") (bytes "KUBEAPPLY_DEBUG")).2.1
      (Or.inl (by decide)),
    by decide⟩

theorem stringsHasSuffix_iff (s suffix : GoString) :
    stringsHasSuffix s suffix = true ↔ suffix <:+ s := by
  unfold stringsHasSuffix
  rw [Bool.and_eq_true, decide_eq_true_eq, decide_eq_true_eq, List.suffix_iff_eq_drop]
  constructor
  · rintro ⟨_, h⟩; exact h.symm
  · intro h
    refine ⟨?_, h.symm⟩
    have := congrArg List.length h
    rw [List.length_drop] at this
    omega

theorem isYaml_iff (name : GoString) : isYaml name = true ↔ bytes ".yaml" <:+ name := by
  simp [isYaml, stringsHasSuffix_iff]

theorem AddFile_ne (p : Phaser) (path : GoString) : p.AddFile path ≠ p := by
  intro h
  rw [AddFile_eq] at h
  split_ifs at h
  · have hg := congrArg (fun q : Phaser => (mapGet [] q.prefixes ((filepath.Base path).take 3)).length) h
    simp only [mapGet_mapSet_self, List.length_append, List.length_singleton] at hg
    omega
  · have hg := congrArg (fun q : Phaser => q.last.length) h
    simp only [List.length_append, List.length_singleton] at hg
    omega

theorem Add_eq_foldl (p : Phaser) (entries : List WalkEntry) :
    (p.Add entries).1 = (manifestPaths entries).foldl Phaser.AddFile p := by
  induction entries generalizing p with
  | nil => rfl
  | cons e rest ih =>
    cases e with
    | file path =>
      by_cases hy : bytes ".yaml" <:+ path
      · have hy' : isYaml path = true := (isYaml_iff path).mpr hy
        simp [Phaser.Add, Phaser.addEntry, WalkEntry.err, WalkEntry.IsDir, WalkEntry.path,
          manifestPaths, hy, hy', ih]
      · have hy' : isYaml path = false := by
          cases hb : isYaml path with
          | false => rfl
          | true => exact absurd ((isYaml_iff path).mp hb) hy
        simp [Phaser.Add, Phaser.addEntry, WalkEntry.err, WalkEntry.IsDir, WalkEntry.path,
          manifestPaths, hy, hy', ih]
    | dir path err =>
      cases err with
      | none =>
        simp [Phaser.Add, Phaser.addEntry, WalkEntry.err, WalkEntry.IsDir, manifestPaths, ih]
      | some err =>
        simp [Phaser.Add, Phaser.addEntry, WalkEntry.err, manifestPaths]
    | failed path err =>
      simp [Phaser.Add, Phaser.addEntry, WalkEntry.err, manifestPaths]

/-- C14: `isYaml` is true exactly for the names that end in `.yaml`, in this spelling. The
callback of `Phaser.Add` calls `AddFile` on the path of an entry exactly when the entry is
a file, not a directory, and its path ends in `.yaml`: a directory and an entry reported
with an error leave the Phaser as it is, and after a whole walk the Phaser is the one
obtained by `AddFile` on the `.yaml` files walked, in the order of the walk. -/
theorem C14_Add_yaml_files (p : Phaser) (entries : List WalkEntry) (name : GoString) :
    (isYaml name = true ↔ ∃ stem, stem ++ bytes ".yaml" = name) ∧
    isYaml (bytes "k8s/ns.YAML") = false ∧
    isYaml (bytes "k8s/ns.yml") = false ∧
    (p.addEntry (WalkEntry.file name)
      = (if bytes ".yaml" <:+ name then p.AddFile name else p, none)) ∧
    (∀ err, (p.addEntry (WalkEntry.dir name err)).1 = p) ∧
    (∀ err, p.addEntry (WalkEntry.failed name err) = (p, some err)) ∧
    p.AddFile name ≠ p ∧
    (p.Add entries).1 = (manifestPaths entries).foldl Phaser.AddFile p := by
  refine ⟨isYaml_iff name, by decide, by decide, ?_, ?_, ?_, AddFile_ne p name,
    Add_eq_foldl p entries⟩
  · by_cases hy : bytes ".yaml" <:+ name
    · have hy' : isYaml name = true := (isYaml_iff name).mpr hy
      simp only [Phaser.addEntry, WalkEntry.err, WalkEntry.IsDir, WalkEntry.path, hy']
      rw [if_pos hy]
      rfl
    · have hy' : isYaml name = false := by
        cases hb : isYaml name with
        | false => rfl
        | true => exact absurd ((isYaml_iff name).mp hb) hy
      simp only [Phaser.addEntry, WalkEntry.err, WalkEntry.IsDir, WalkEntry.path, hy']
      rw [if_neg hy]
      rfl
  · intro err
    cases err <;> simp [Phaser.addEntry, WalkEntry.err, WalkEntry.IsDir]
  · intro err
    simp [Phaser.addEntry, WalkEntry.err]

theorem not_yaml_suffix_o (n : GoString) : ¬ bytes ".yaml" <:+ n ++ bytes ".o" := by
  rintro ⟨t, ht⟩
  have h1 : bytes ".yaml" = [46, 121, 97, 109, 108] := by decide
  have h2 : bytes ".o" = [46, 111] := by decide
  rw [h1, h2] at ht
  have hr := congrArg List.reverse ht
  simp at hr

/-- C18: for every manifest path `n` the rendered path `n.o` is not a manifest name for
`isYaml`; the callback of `Phaser.Add` leaves the Phaser as it is on such a file, and no
walk hands a rendered path to `AddFile`. -/
theorem C18_rendered_not_yaml (n : GoString) (p : Phaser) (entries : List WalkEntry) :
    isYaml (n ++ bytes ".o") = false ∧
    p.addEntry (WalkEntry.file (n ++ bytes ".o")) = (p, none) ∧
    n ++ bytes ".o" ∉ manifestPaths entries := by
  have hy : isYaml (n ++ bytes ".o") = false := by
    cases hb : isYaml (n ++ bytes ".o") with
    | false => rfl
    | true => exact absurd ((isYaml_iff _).mp hb) (not_yaml_suffix_o n)
  refine ⟨hy, ?_, ?_⟩
  · simp [Phaser.addEntry, WalkEntry.err, WalkEntry.IsDir, WalkEntry.path, hy]
  · induction entries with
    | nil => simp [manifestPaths]
    | cons e rest ih =>
      cases e with
      | file path =>
        simp only [manifestPaths]
        split_ifs with hs
        · intro hm
          rcases List.mem_cons.mp hm with h | h
          · rw [← h] at hs
            exact not_yaml_suffix_o n hs
          · exact ih h
        · exact ih
      | dir path err =>
        cases err with
        | none => simpa [manifestPaths] using ih
        | some err => simp [manifestPaths]
      | failed path err => simp [manifestPaths]

theorem runnerCalls_append (a b : List Event) :
    runnerCalls (a ++ b) = runnerCalls a ++ runnerCalls b := by
  simp [runnerCalls]

theorem runnerCalls_scans (l : List Event) (h2 : kubectlCalls l = [])
    (h3 : removeCalls l = []) (h4 : waitCalls l = []) :
    runnerCalls l = (scanCalls l).map Event.scan := by
  induction l with
  | nil => rfl
  | cons e l ih =>
    have e2 : kubectlCalls (e :: l) = kubectlCalls [e] ++ kubectlCalls l :=
      kubectlCalls_append [e] l
    have e3 : removeCalls (e :: l) = removeCalls [e] ++ removeCalls l :=
      removeCalls_append [e] l
    have e4 : waitCalls (e :: l) = waitCalls [e] ++ waitCalls l := waitCalls_append [e] l
    have e1 : scanCalls (e :: l) = scanCalls [e] ++ scanCalls l := scanCalls_append [e] l
    have e0 : runnerCalls (e :: l) = runnerCalls [e] ++ runnerCalls l :=
      runnerCalls_append [e] l
    rw [e2] at h2; rw [e3] at h3; rw [e4] at h4
    obtain ⟨h2a, h2b⟩ := List.append_eq_nil.mp h2
    obtain ⟨h3a, h3b⟩ := List.append_eq_nil.mp h3
    obtain ⟨h4a, h4b⟩ := List.append_eq_nil.mp h4
    rw [e0, e1, ih h2b h3b h4b, List.map_append]
    congr 1
    cases e with
    | kubectl args => simp [kubectlCalls] at h2a
    | remove n => simp [removeCalls] at h3a
    | wait d => simp [waitCalls] at h4a
    | _ => rfl

theorem runnerCalls_removes (l : List Event) (h1 : scanCalls l = [])
    (h2 : kubectlCalls l = []) (h4 : waitCalls l = []) :
    runnerCalls l = (removeCalls l).map Event.remove := by
  induction l with
  | nil => rfl
  | cons e l ih =>
    have e2 : kubectlCalls (e :: l) = kubectlCalls [e] ++ kubectlCalls l :=
      kubectlCalls_append [e] l
    have e3 : removeCalls (e :: l) = removeCalls [e] ++ removeCalls l :=
      removeCalls_append [e] l
    have e4 : waitCalls (e :: l) = waitCalls [e] ++ waitCalls l := waitCalls_append [e] l
    have e1 : scanCalls (e :: l) = scanCalls [e] ++ scanCalls l := scanCalls_append [e] l
    have e0 : runnerCalls (e :: l) = runnerCalls [e] ++ runnerCalls l :=
      runnerCalls_append [e] l
    rw [e2] at h2; rw [e1] at h1; rw [e4] at h4
    obtain ⟨h2a, h2b⟩ := List.append_eq_nil.mp h2
    obtain ⟨h1a, h1b⟩ := List.append_eq_nil.mp h1
    obtain ⟨h4a, h4b⟩ := List.append_eq_nil.mp h4
    rw [e0, e3, ih h1b h2b h4b, List.map_append]
    congr 1
    cases e with
    | kubectl args => simp [kubectlCalls] at h2a
    | scan n => simp [scanCalls] at h1a
    | wait d => simp [waitCalls] at h4a
    | _ => rfl

theorem runnerCalls_of_none (l : List Event) (hl : noRunnerCalls l) : runnerCalls l = [] := by
  obtain ⟨h1, h2, h3, h4⟩ := hl
  rw [runnerCalls_scans l h2 h3 h4, h1]
  rfl

/-- When no `Scan` of a log failed, every path scanned in it has the validity flag true. -/
theorem lastScanOk_of_all_ok {δ : Type} (w : World δ) (r : GoString) (l h : List Event)
    (cur : Bool) (hf : failedScans w h l = []) (hr : r ∈ scanCalls l ∨ cur = true) :
    lastScanOk w r h l cur = true := by
  induction l generalizing h cur with
  | nil =>
    rcases hr with hr | hr
    · simp [scanCalls] at hr
    · exact hr
  | cons e l ih =>
    have e1 : scanCalls (e :: l) = scanCalls [e] ++ scanCalls l := scanCalls_append [e] l
    rw [e1] at hr
    cases e with
    | scan n =>
      simp only [failedScans] at hf
      obtain ⟨hf1, hf2⟩ := List.append_eq_nil.mp hf
      have hnone : w.scan h n = none := by
        cases hs : w.scan h n with
        | none => rfl
        | some e => simp [hs] at hf1
      simp only [lastScanOk]
      apply ih _ _ hf2
      by_cases hn : n = r
      · subst hn
        right; simp [hnone]
      · rcases hr with hr | hr
        · left
          rcases List.mem_append.mp hr with hr | hr
          · exact absurd (by simpa [scanCalls] using hr : r = n).symm hn
          · exact hr
        · right; simp [hn, hr]
    | _ =>
      simp only [failedScans] at hf
      simp only [lastScanOk]
      apply ih _ _ hf
      rcases hr with hr | hr
      · left
        rcases List.mem_append.mp hr with hr | hr
        · simp [scanCalls] at hr
        · exact hr
      · right; exact hr

/-- C12 as stated fails when a copy goroutine of `apply` ends the process: debug is off, the
expansion, both `Scan` calls and the `kubectl` invocation succeed, and the goroutine that
copies the standard output of `kubectl` panics with `read |0: file already closed` while
the main goroutine is in the cleanup loop. The calls stop after the first `os.Remove`: the
second rendered path is not removed and `Wait` is not called. -/
theorem C12_copy_panic_cuts_cleanup :
    (expand copyFailsInCleanup [bytes "a.yaml", bytes "b.yaml"] () []).1
      = ([bytes "a.yaml.o", bytes "b.yaml.o"], none) ∧
    failedScans copyFailsInCleanup []
      (phaseLog ⟨false, 60⟩ copyFailsInCleanup [bytes "a.yaml", bytes "b.yaml"] () []) = [] ∧
    failedApplies copyFailsInCleanup []
      (phaseLog ⟨false, 60⟩ copyFailsInCleanup [bytes "a.yaml", bytes "b.yaml"] () []) = [] ∧
    runnerCalls (phaseLog ⟨false, 60⟩ copyFailsInCleanup [bytes "a.yaml", bytes "b.yaml"] () [])
      = [Event.scan (bytes "a.yaml.o"), Event.scan (bytes "b.yaml.o"),
         Event.kubectl [bytes "apply", bytes "-f", bytes "a.yaml.o", bytes "-f",
           bytes "b.yaml.o"],
         Event.remove (bytes "a.yaml.o")] ∧
    runnerCalls (phaseLog ⟨false, 60⟩ copyFailsInCleanup [bytes "a.yaml", bytes "b.yaml"] () [])
      ≠ [bytes "a.yaml.o", bytes "b.yaml.o"].map Event.scan
        ++ [Event.kubectl (bytes "apply" ::
              [bytes "a.yaml.o", bytes "b.yaml.o"].flatMap (fun r => [bytes "-f", r]))]
        ++ [bytes "a.yaml.o", bytes "b.yaml.o"].map Event.remove
        ++ [Event.wait (timeoutDuration 60)] ∧
    (phase ⟨false, 60⟩ copyFailsInCleanup [bytes "a.yaml", bytes "b.yaml"] () []).1
      = Outcome.panicked (bytes "read |0: file already closed") := by
  decide

/-- C12 (amended): with debug off, in a phase with the rendered paths `rs` in which the
expansion, every `Scan` and the `kubectl` invocation succeed and no copy goroutine of
`apply` ends the process, the calls of `Scan`, `kubectl`, `os.Remove` and `Wait` are, in
this order: `Scan` on each path, one `kubectl apply` with all the paths, `os.Remove` on
each path, one `Wait`. Every rendered path is removed after the apply and before the
wait. -/
theorem C12_call_order {δ : Type} (cfg : Config) (w : World δ) (names rs : List GoString)
    (data : δ) (h : List Event) (hdebug : cfg.debug = false)
    (hexp : (expand w names data h).1 = (rs, none))
    (hscan : failedScans w h (phaseLog cfg w names data h) = [])
    (happly : failedApplies w h (phaseLog cfg w names data h) = [])
    (hcopy : copyPanics (phaseLog cfg w names data h) = []) :
    runnerCalls (phaseLog cfg w names data h)
      = rs.map Event.scan
        ++ [Event.kubectl (bytes "apply" :: rs.flatMap (fun r => [bytes "-f", r]))]
        ++ rs.map Event.remove
        ++ [Event.wait (timeoutDuration cfg.timeout)] := by
  have hrs : rs = (expand w names data h).1.1 := by rw [hexp]
  have he : (expand w names data h).1.2 = none := by rw [hexp]
  obtain ⟨_, hsum⟩ := phase_summary cfg w names data h _ rs rfl hrs
  have hD : scanCalls (phaseLog cfg w names data h) = rs ∧
      removeCalls (phaseLog cfg w names data h)
        = rs.filter (fun r => lastScanOk w r h (phaseLog cfg w names data h) false) ∧
      waitCalls (phaseLog cfg w names data h) = [timeoutDuration cfg.timeout] := by
    rcases hsum with hA | hB | hC | hD | hE
    · exact absurd he hA.1
    · exact absurd hscan hB.2.1
    · exact absurd happly hC.2.2.1
    · obtain ⟨_, _, _, hsc, _, hr, hw, _⟩ := hD
      rw [hdebug] at hr
      exact ⟨hsc, by simpa using hr, hw⟩
    · exact absurd hcopy hE.2.2.2.1
  obtain ⟨hsc, hrm, hwt⟩ := hD
  have hall : rs.filter (fun r => lastScanOk w r h (phaseLog cfg w names data h) false)
      = rs := by
    rw [List.filter_eq_self]
    intro r hr
    exact lastScanOk_of_all_ok w r _ h false hscan (Or.inl (by rw [hsc]; exact hr))
  rw [hall] at hrm
  obtain ⟨lexp, ls, tail, _, hq, _, hs1, hs2, hs3, hs4, hlog, hcase⟩ :=
    phase_shape cfg w names data h rs hrs he
  have hpl := phaseLog_eq cfg w names data h _ hlog
  have hq' := hq
  obtain ⟨hq1, hq2, hq3, hq4⟩ := hq'
  rw [hpl] at hwt hrm hcopy ⊢
  rcases hcase with ⟨_, _, _, _, ht, _⟩ |
    ⟨_, line, ⟨_, ht⟩ | ⟨_, lr, p, ht, _, _, _, _, hne, _⟩ | ⟨_, lr, ht, hr1, hr2, hr4, _⟩⟩
  · simp only [waitCalls_append, hq4, hs4, ht] at hwt
    simp [waitCalls] at hwt
  · rw [ht] at hwt
    simp only [waitCalls_append, hq4, hs4] at hwt
    simp [waitCalls] at hwt
  · rw [ht] at hcopy
    simp only [copyPanics_append, List.append_eq_nil] at hcopy
    exact absurd hcopy.2.2 hne
  · rw [ht] at hrm ⊢
    simp only [removeCalls_append, hq3, hs3] at hrm
    have hlr : removeCalls lr = rs := by simpa [removeCalls] using hrm
    simp only [runnerCalls_append, runnerCalls_of_none lexp hq,
      runnerCalls_scans ls hs2 hs3 hs4, runnerCalls_removes lr hr1 hr2 hr4, hs1, hlr,
      ← applyArgs_eq]
    simp [runnerCalls, isRunnerCall]

/-- Two files in a quiet world, debug off. -/
theorem C12_call_order_witness :
    (expand (quietWorld (bytes "kind: Pod")) [bytes "a.yaml", bytes "b.yaml"] () []).1
      = ([bytes "a.yaml.o", bytes "b.yaml.o"], none) ∧
    failedScans (quietWorld (bytes "kind: Pod")) []
      (phaseLog ⟨false, 60⟩ (quietWorld (bytes "kind: Pod")) [bytes "a.yaml", bytes "b.yaml"]
        () []) = [] ∧
    failedApplies (quietWorld (bytes "kind: Pod")) []
      (phaseLog ⟨false, 60⟩ (quietWorld (bytes "kind: Pod")) [bytes "a.yaml", bytes "b.yaml"]
        () []) = [] ∧
    copyPanics
      (phaseLog ⟨false, 60⟩ (quietWorld (bytes "kind: Pod")) [bytes "a.yaml", bytes "b.yaml"]
        () []) = [] ∧
    runnerCalls
      (phaseLog ⟨false, 60⟩ (quietWorld (bytes "kind: Pod")) [bytes "a.yaml", bytes "b.yaml"]
        () [])
      = [Event.scan (bytes "a.yaml.o"), Event.scan (bytes "b.yaml.o"),
         Event.kubectl [bytes "apply", bytes "-f", bytes "a.yaml.o", bytes "-f",
           bytes "b.yaml.o"],
         Event.remove (bytes "a.yaml.o"), Event.remove (bytes "b.yaml.o"),
         Event.wait 60000000000] :=
  ⟨by decide, by decide, by decide, by decide,
    (C12_call_order ⟨false, 60⟩ (quietWorld (bytes "kind: Pod"))
      [bytes "a.yaml", bytes "b.yaml"] [bytes "a.yaml.o", bytes "b.yaml.o"] () [] rfl
      (by decide) (by decide) (by decide) (by decide)).trans (by decide)⟩

end Kubeapply
